import Mathlib

/-!
Shallow embedding of libtga (src/tga.c) and verification of the frozen claims.

Modelling conventions:
* C byte buffers (`byte *`) are modelled as total functions `Nat → Nat`; a write is a
  pointwise update.  `malloc` is modelled as the all-zero buffer (the C contents are
  indeterminate; no verified statement depends on unwritten positions).
* The pluggable stream is modelled as the list of the file's bytes together with an
  explicit read position.  `fread` copies the bytes still available (at most the
  requested count) and advances the position by the number of bytes actually read;
  like the C code, the model never inspects the count that was read.
* Machine integers are unbounded naturals; an explicit `% 256` (or masking) is written
  exactly where the C program stores into a `byte`/`word` after arithmetic that can
  exceed the type's range.  Plain byte-to-byte copies cannot wrap and carry no `%`.
-/

namespace Tga

/-- A byte buffer: total map from byte offset to stored value. -/
abbrev Buf := Nat → Nat

/-- Write value `v` at offset `a`. -/
def updB (d : Buf) (a v : Nat) : Buf := fun i => if i = a then v else d i

/-- `swap_byte(&d[a], &d[b])` from the source. -/
def swap_byte (d : Buf) (a b : Nat) : Buf :=
  fun i => if i = a then d b else if i = b then d a else d i

/-- The all-zero buffer standing in for freshly `malloc`ed storage. -/
def zeroBuf : Buf := fun _ => 0

/-- Copy a list of bytes into a buffer starting at `base`. -/
def bufWrite : Buf → Nat → List Nat → Buf
  | d, _, [] => d
  | d, base, b :: bs => bufWrite (updB d base b) (base + 1) bs

/-- The bytes an `fread` of `n` bytes at position `pos` obtains (short at end of file). -/
def readN (bytes : List Nat) (pos n : Nat) : List Nat := (bytes.drop pos).take n

/-- Index permutation performed by one `swap_byte` call. -/
def swapIdx (a b i : Nat) : Nat := if i = a then b else if i = b then a else i

/-- The permutation realised by a sequence of `swap_byte` calls (first call outermost). -/
def permOf : List (Nat × Nat) → Nat → Nat
  | [], i => i
  | p :: t, i => swapIdx p.1 p.2 (permOf t i)

/-- Running a list of `swap_byte` calls over a buffer, in list order. -/
def swapsOf (ps : List (Nat × Nat)) (d : Buf) : Buf :=
  ps.foldl (fun f p => swap_byte f p.1 p.2) d

/-- Offset `i` is touched by none of the swap pairs. -/
def Untouched (ps : List (Nat × Nat)) (i : Nat) : Prop :=
  ∀ q ∈ ps, i ≠ q.1 ∧ i ≠ q.2

/-- Two swap pairs touch four pairwise-distinct offsets. -/
def disjPair (p q : Nat × Nat) : Prop :=
  p.1 ≠ q.1 ∧ p.1 ≠ q.2 ∧ p.2 ≠ q.1 ∧ p.2 ≠ q.2

/-- The in-memory image struct of tga.h. -/
structure tga_image where
  width : Nat
  height : Nat
  channels : Nat
  data : Buf

/-- The materialised pixel buffer of an image (`width*height*channels` bytes). -/
def tga_pixels (t : tga_image) : List Nat :=
  (List.range (t.width * t.height * t.channels)).map t.data

/-- Index pairs swapped by `flip_tga_horizontally`, in loop order. -/
def hpairs (w h c : Nat) : List (Nat × Nat) :=
  (List.range h).flatMap fun i =>
    (List.range (w / 2)).flatMap fun j =>
      (List.range c).map fun k =>
        (((i * w) + j) * c + k, ((i * w) + (w - j - 1)) * c + k)

/-- `flip_tga_horizontally` from the source (the nested swap loops). -/
def flip_tga_horizontally (ptga : tga_image) : tga_image :=
  { ptga with data := swapsOf (hpairs ptga.width ptga.height ptga.channels) ptga.data }

/-- Index pairs swapped by `flip_tga_vertically`, in loop order. -/
def vpairs (w h c : Nat) : List (Nat × Nat) :=
  (List.range (w * c)).flatMap fun i =>
    (List.range (h / 2)).map fun j =>
      (i + w * c * j, i + w * c * (h - j - 1))

/-- `flip_tga_vertically` from the source. -/
def flip_tga_vertically (ptga : tga_image) : tga_image :=
  { ptga with data := swapsOf (vpairs ptga.width ptga.height ptga.channels) ptga.data }

/-!  ## The decoder (`load_tga2`)

Each supported (image type, bits-per-pixel) branch of `load_tga2` becomes one
definition returning the pixel buffer, the channel count and the stream position
after the branch's reads.  The RLE loops are written as structural recursion on a
fuel argument; since every packet advances the pixel index by at least one, fuel
`width*height` makes the model agree with the C loop (which runs while
`i < width*height`).  When fuel runs out with pixels still missing the model simply
stops, as the corresponding C iteration count can never be reached.
-/

/-- One iteration of the colour-mapped expansion loop (runs for `i` from
`width*height-1` down to `0`); each statement re-reads the buffer exactly as the
source does (the comment in the source warns the statement order matters). -/
def mapped_expand (color_data : Buf) (cch : Nat) (d : Buf) (i : Nat) : Buf :=
  let d := if cch = 4 then updB d (i * cch + 3) (color_data (d i * cch + 3)) else d
  let d := updB d (i * cch + 2) (color_data (d i * cch + 0))
  let d := updB d (i * cch + 1) (color_data (d i * cch + 1))
  updB d (i * cch + 0) (color_data (d i * cch + 2))

/-- `TGA_TYPE_MAPPED`, 8 bits per pixel. -/
def decode_mapped (bytes : List Nat) (pos w h : Nat) (color_data : Buf) (cch : Nat) :
    Buf × Nat × Nat :=
  let chunk := readN bytes pos (w * h)
  let d0 := bufWrite zeroBuf 0 chunk
  let d := ((List.range (w * h)).reverse).foldl (mapped_expand color_data cch) d0
  (d, cch, pos + chunk.length)

/-- Swap pairs of the B↔R loop of the 24/32-bit true-colour branch
(for each row `y` the source swaps `pLine[i]` and `pLine[i+2]` for `i` a multiple
of the channel count below `width*channels`). -/
def rgbSwapPairs (w h ch : Nat) : List (Nat × Nat) :=
  (List.range h).flatMap fun y =>
    (List.range w).map fun x => (w * ch * y + x * ch, w * ch * y + x * ch + 2)

/-- `TGA_TYPE_RGB`, 24 or 32 bits per pixel. -/
def decode_rgb24 (bytes : List Nat) (pos w h ch : Nat) : Buf × Nat × Nat :=
  let chunk := readN bytes pos (w * h * ch)
  let d0 := bufWrite zeroBuf 0 chunk
  (swapsOf (rgbSwapPairs w h ch) d0, ch, pos + chunk.length)

/-- One iteration of the 15/16-bit expansion loop (descending `i`); the 16-bit word
is read little-endian from offsets `2i, 2i+1` of the same buffer. -/
def rgb16_expand (ch : Nat) (d : Buf) (i : Nat) : Buf :=
  let pixel := d (i * 2 + 1) * 256 + d (i * 2)
  let d := updB d (i * ch + 0) (((pixel >>> 10) &&& 0x1f) <<< 3)
  let d := updB d (i * ch + 1) (((pixel >>> 5) &&& 0x1f) <<< 3)
  let d := updB d (i * ch + 2) ((pixel &&& 0x1f) <<< 3)
  if ch = 4 then updB d (i * ch + 3) (if pixel &&& 0x8000 ≠ 0 then 255 else 0) else d

/-- `TGA_TYPE_RGB`, 15 or 16 bits per pixel. -/
def decode_rgb16 (bytes : List Nat) (pos w h ch : Nat) : Buf × Nat × Nat :=
  let chunk := readN bytes pos (w * h * 2)
  let d0 := bufWrite zeroBuf 0 chunk
  let d := ((List.range (w * h)).reverse).foldl (rgb16_expand ch) d0
  (d, ch, pos + chunk.length)

/-- `bw2rgb((word*)&d[src], &d[dst], 4)` where the word aliases the buffer: every
statement re-reads `*pixel` from offsets `src, src+1`, in the source's order
(alpha first, then B, G, R — the source warns the order matters). -/
def bw2rgb_at (d : Buf) (src dst : Nat) : Buf :=
  let d := updB d (dst + 3) ((d (src + 1) * 256 + d src) >>> 8)
  let d := updB d (dst + 2) ((d (src + 1) * 256 + d src) &&& 0xff)
  let d := updB d (dst + 1) ((d (src + 1) * 256 + d src) &&& 0xff)
  updB d (dst + 0) ((d (src + 1) * 256 + d src) &&& 0xff)

/-- `TGA_TYPE_BW`, 16 bits per pixel (channels = 4). -/
def decode_bw16 (bytes : List Nat) (pos w h : Nat) : Buf × Nat × Nat :=
  let chunk := readN bytes pos (w * h * 2)
  let d0 := bufWrite zeroBuf 0 chunk
  let d := ((List.range (w * h)).reverse).foldl (fun d i => bw2rgb_at d (i * 2) (i * 4)) d0
  (d, 4, pos + chunk.length)

/-- The run-packet fill of the mapped RLE branch: write the palette entry of index
byte `pixel` into `n` consecutive pixel slots starting at `i`. -/
def mapped_run_fill (color_data : Buf) (cch : Nat) (pixel : Nat) : Buf → Nat → Nat → Buf
  | d, _, 0 => d
  | d, i, n + 1 =>
    let d := if cch = 4 then updB d (i * cch + 3) (color_data (pixel * cch + 3)) else d
    let d := updB d (i * cch + 2) (color_data (pixel * cch + 0))
    let d := updB d (i * cch + 1) (color_data (pixel * cch + 1))
    let d := updB d (i * cch + 0) (color_data (pixel * cch + 2))
    mapped_run_fill color_data cch pixel d (i + 1) n

/-- One iteration (index `j`, descending) of the raw-packet expansion of the mapped
RLE branch; the index byte is re-read from `d (i*cch + j)` at every statement. -/
def mapped_raw_expand (color_data : Buf) (cch i : Nat) (d : Buf) (j : Nat) : Buf :=
  let d := if cch = 4 then updB d ((i + j) * cch + 3) (color_data (d (i * cch + j) * cch + 3)) else d
  let d := updB d ((i + j) * cch + 2) (color_data (d (i * cch + j) * cch + 0))
  let d := updB d ((i + j) * cch + 1) (color_data (d (i * cch + j) * cch + 1))
  updB d ((i + j) * cch + 0) (color_data (d (i * cch + j) * cch + 2))

/-- `TGA_TYPE_MAPPED_RLE` loop.  `rle_id` persists across iterations exactly as the
C local does: a failed 1-byte read leaves its previous value (0 after a run packet,
the previous count after a raw packet, whose `for` loop does not decrement it). -/
def mapped_rle_load (bytes : List Nat) (w h : Nat) (color_data : Buf) (cch : Nat) :
    Nat → Nat → Nat → Nat → Buf → Buf × Nat
  | 0, _, pos, _, d => (d, pos)
  | fuel + 1, i, pos, rle_id, d =>
    if i < w * h then
      let rb := readN bytes pos 1
      let pos := pos + rb.length
      let rle_id := rb.getD 0 rle_id
      if rle_id &&& 0x80 ≠ 0 then
        let pb := readN bytes pos 1
        let pos := pos + pb.length
        let pixel := pb.getD 0 0
        let n := rle_id - 127
        let d := mapped_run_fill color_data cch pixel d i n
        mapped_rle_load bytes w h color_data cch fuel (i + n) pos 0 d
      else
        let n := rle_id + 1
        let chunk := readN bytes pos n
        let pos := pos + chunk.length
        let d := bufWrite d (i * cch) chunk
        let d := ((List.range n).reverse).foldl (mapped_raw_expand color_data cch i) d
        mapped_rle_load bytes w h color_data cch fuel (i + n) pos n d
    else (d, pos)

/-- `TGA_TYPE_MAPPED_RLE`, 8 bits per pixel. -/
def decode_mapped_rle (bytes : List Nat) (pos w h : Nat) (color_data : Buf) (cch : Nat) :
    Buf × Nat × Nat :=
  let r := mapped_rle_load bytes w h color_data cch (w * h) 0 pos 0 zeroBuf
  (r.1, cch, r.2)

/-- The run-packet fill of the 24/32-bit true-colour RLE branch. -/
def rgb_run_fill (ch : Nat) (colors : Buf) : Buf → Nat → Nat → Buf
  | d, _, 0 => d
  | d, i, n + 1 =>
    let d := updB d (i * ch + 0) (colors 2)
    let d := updB d (i * ch + 1) (colors 1)
    let d := updB d (i * ch + 2) (colors 0)
    let d := if ch = 4 then updB d (i * ch + 3) (colors 3) else d
    rgb_run_fill ch colors d (i + 1) n

/-- `TGA_TYPE_RGB_RLE` loop, 24/32 bits per pixel.  After either packet kind the C
`while` loop has decremented `rle_id` to 0, so 0 is what a failed header read
leaves behind. -/
def rgb_rle_load (bytes : List Nat) (w h ch : Nat) :
    Nat → Nat → Nat → Nat → Buf → Buf × Nat
  | 0, _, pos, _, d => (d, pos)
  | fuel + 1, i, pos, rle_id, d =>
    if i < w * h then
      let rb := readN bytes pos 1
      let pos := pos + rb.length
      let rle_id := rb.getD 0 rle_id
      if rle_id &&& 0x80 ≠ 0 then
        let cb := readN bytes pos ch
        let pos := pos + cb.length
        let colors : Buf := fun k => cb.getD k 0
        let n := rle_id - 127
        let d := rgb_run_fill ch colors d i n
        rgb_rle_load bytes w h ch fuel (i + n) pos 0 d
      else
        let n := rle_id + 1
        let chunk := readN bytes pos (n * ch)
        let pos := pos + chunk.length
        let d := bufWrite d (i * ch) chunk
        let d := swapsOf ((List.range n).map fun t => ((i + t) * ch, (i + t) * ch + 2)) d
        rgb_rle_load bytes w h ch fuel (i + n) pos 0 d
    else (d, pos)

/-- `TGA_TYPE_RGB_RLE`, 24 or 32 bits per pixel. -/
def decode_rgb_rle24 (bytes : List Nat) (pos w h ch : Nat) : Buf × Nat × Nat :=
  let r := rgb_rle_load bytes w h ch (w * h) 0 pos 0 zeroBuf
  (r.1, ch, r.2)

/-- The run-packet fill of the 15/16-bit true-colour RLE branch: each channel value
is written and then incremented by its own top three bits (two statements, the
second re-reading the byte just written). -/
def rgb16_run_fill (ch : Nat) (pixel : Nat) : Buf → Nat → Nat → Buf
  | d, _, 0 => d
  | d, i, n + 1 =>
    let d := updB d (i * ch + 0) (((pixel >>> 10) &&& 0x1f) <<< 3)
    let d := updB d (i * ch + 0) (d (i * ch + 0) + (d (i * ch + 0) >>> 5))
    let d := updB d (i * ch + 1) (((pixel >>> 5) &&& 0x1f) <<< 3)
    let d := updB d (i * ch + 1) (d (i * ch + 1) + (d (i * ch + 1) >>> 5))
    let d := updB d (i * ch + 2) ((pixel &&& 0x1f) <<< 3)
    let d := updB d (i * ch + 2) (d (i * ch + 2) + (d (i * ch + 2) >>> 5))
    let d := if ch = 4 then updB d (i * ch + 3) (if pixel &&& 0x8000 ≠ 0 then 0xff else 0) else d
    rgb16_run_fill ch pixel d (i + 1) n

/-- One iteration (index `j`, descending) of the raw-packet expansion of the
15/16-bit RLE branch; the word is read little-endian from offsets
`i*ch + 2j, i*ch + 2j + 1` of the same buffer. -/
def rgb16_raw_expand (ch i : Nat) (d : Buf) (j : Nat) : Buf :=
  let pixel := d (i * ch + j * 2 + 1) * 256 + d (i * ch + j * 2)
  let d := updB d ((i + j) * ch + 0) (((pixel >>> 10) &&& 0x1f) <<< 3)
  let d := updB d ((i + j) * ch + 0) (d ((i + j) * ch + 0) + (d ((i + j) * ch + 0) >>> 5))
  let d := updB d ((i + j) * ch + 1) (((pixel >>> 5) &&& 0x1f) <<< 3)
  let d := updB d ((i + j) * ch + 1) (d ((i + j) * ch + 1) + (d ((i + j) * ch + 1) >>> 5))
  let d := updB d ((i + j) * ch + 2) ((pixel &&& 0x1f) <<< 3)
  let d := updB d ((i + j) * ch + 2) (d ((i + j) * ch + 2) + (d ((i + j) * ch + 2) >>> 5))
  if ch = 4 then updB d ((i + j) * ch + 3) (if pixel &&& 0x8000 ≠ 0 then 0xff else 0) else d

/-- `TGA_TYPE_RGB_RLE` loop, 15/16 bits per pixel.  The raw-packet `for` loop does
not decrement `rle_id`, so the raw count persists into a failed header read. -/
def rgb16_rle_load (bytes : List Nat) (w h ch : Nat) :
    Nat → Nat → Nat → Nat → Buf → Buf × Nat
  | 0, _, pos, _, d => (d, pos)
  | fuel + 1, i, pos, rle_id, d =>
    if i < w * h then
      let rb := readN bytes pos 1
      let pos := pos + rb.length
      let rle_id := rb.getD 0 rle_id
      if rle_id &&& 0x80 ≠ 0 then
        let wb := readN bytes pos 2
        let pos := pos + wb.length
        let pixel := wb.getD 1 0 * 256 + wb.getD 0 0
        let n := rle_id - 127
        let d := rgb16_run_fill ch pixel d i n
        rgb16_rle_load bytes w h ch fuel (i + n) pos 0 d
      else
        let n := rle_id + 1
        let chunk := readN bytes pos (n * 2)
        let pos := pos + chunk.length
        let d := bufWrite d (i * ch) chunk
        let d := ((List.range n).reverse).foldl (rgb16_raw_expand ch i) d
        rgb16_rle_load bytes w h ch fuel (i + n) pos n d
    else (d, pos)

/-- `TGA_TYPE_RGB_RLE`, 15 or 16 bits per pixel. -/
def decode_rgb_rle16 (bytes : List Nat) (pos w h ch : Nat) : Buf × Nat × Nat :=
  let r := rgb16_rle_load bytes w h ch (w * h) 0 pos 0 zeroBuf
  (r.1, ch, r.2)

/-- The run-packet fill of the black-and-white RLE branch (`bw2rgb` on a local
word, channels = 4). -/
def bw_run_fill (pixel : Nat) : Buf → Nat → Nat → Buf
  | d, _, 0 => d
  | d, i, n + 1 =>
    let d := updB d (i * 4 + 3) (pixel >>> 8)
    let d := updB d (i * 4 + 2) (pixel &&& 0xff)
    let d := updB d (i * 4 + 1) (pixel &&& 0xff)
    let d := updB d (i * 4 + 0) (pixel &&& 0xff)
    bw_run_fill pixel d (i + 1) n

/-- `TGA_TYPE_BW_RLE` loop, 16 bits per pixel (channels = 4).  The raw-packet `for`
loop does not decrement `rle_id`. -/
def bw_rle_load (bytes : List Nat) (w h : Nat) :
    Nat → Nat → Nat → Nat → Buf → Buf × Nat
  | 0, _, pos, _, d => (d, pos)
  | fuel + 1, i, pos, rle_id, d =>
    if i < w * h then
      let rb := readN bytes pos 1
      let pos := pos + rb.length
      let rle_id := rb.getD 0 rle_id
      if rle_id &&& 0x80 ≠ 0 then
        let wb := readN bytes pos 2
        let pos := pos + wb.length
        let pixel := wb.getD 1 0 * 256 + wb.getD 0 0
        let n := rle_id - 127
        let d := bw_run_fill pixel d i n
        bw_rle_load bytes w h fuel (i + n) pos 0 d
      else
        let n := rle_id + 1
        let chunk := readN bytes pos (n * 2)
        let pos := pos + chunk.length
        let d := bufWrite d (i * 4) chunk
        let d := ((List.range n).reverse).foldl (fun d j => bw2rgb_at d (i * 4 + j * 2) ((i + j) * 4)) d
        bw_rle_load bytes w h fuel (i + n) pos n d
    else (d, pos)

/-- `TGA_TYPE_BW_RLE`, 16 bits per pixel. -/
def decode_bw_rle (bytes : List Nat) (pos w h : Nat) : Buf × Nat × Nat :=
  let r := bw_rle_load bytes w h (w * h) 0 pos 0 zeroBuf
  (r.1, 4, r.2)

/-- The supported-subtype dispatch of `load_tga2`: `some (data, channels, pos)` when
a branch ran (every branch body sets `success`), `none` when the (type, bit-depth)
pair is unsupported and `success` stays false. -/
def load_dispatch (bytes : List Nat) (image_type bits_per_pixel pos w h : Nat)
    (color_data : Buf) (color_channels : Nat) : Option (Buf × Nat × Nat) :=
  if image_type = 1 then
    if bits_per_pixel = 8 then some (decode_mapped bytes pos w h color_data color_channels)
    else none
  else if image_type = 2 then
    if bits_per_pixel = 24 ∨ bits_per_pixel = 32 then
      some (decode_rgb24 bytes pos w h (bits_per_pixel / 8))
    else if bits_per_pixel = 15 ∨ bits_per_pixel = 16 then
      some (decode_rgb16 bytes pos w h (if bits_per_pixel = 16 then 4 else 3))
    else none
  else if image_type = 3 then
    if bits_per_pixel = 16 then some (decode_bw16 bytes pos w h) else none
  else if image_type = 9 then
    if bits_per_pixel = 8 then some (decode_mapped_rle bytes pos w h color_data color_channels)
    else none
  else if image_type = 10 then
    if bits_per_pixel = 24 ∨ bits_per_pixel = 32 then
      some (decode_rgb_rle24 bytes pos w h (bits_per_pixel / 8))
    else if bits_per_pixel = 15 ∨ bits_per_pixel = 16 then
      some (decode_rgb_rle16 bytes pos w h (if bits_per_pixel = 16 then 4 else 3))
    else none
  else if image_type = 11 then
    if bits_per_pixel = 16 then some (decode_bw_rle bytes pos w h) else none
  else none

/-- The colour-map read of `load_tga2`: `(color_data, color_channels, position)`
after skipping the id field and, when the colour-map flag is set, reading
`color_map_length * color_channels` bytes. -/
def cmap_info (bytes : List Nat) : Buf × Nat × Nat :=
  let hd := fun i => bytes.getD i 0
  let pos := 18 + hd 0
  if hd 1 ≠ 0 then
    let color_map_length := hd 6 * 256 + hd 5
    let cch := hd 7 / 8
    let chunk := readN bytes pos (color_map_length * cch)
    (bufWrite zeroBuf 0 chunk, cch, pos + chunk.length)
  else (zeroBuf, 0, pos)

/-- Everything `load_tga2` does after the image-type-0 check: colour map, branch
dispatch and, on success, field assignment and the origin-triggered flips.
`none` exactly when `success` stays false. -/
def load_body (bytes : List Nat) : Option (tga_image × Nat) :=
  let hd := fun i => bytes.getD i 0
  let cmap := cmap_info bytes
  match load_dispatch bytes (hd 2) (hd 16) cmap.2.2 (hd 13 * 256 + hd 12)
      (hd 15 * 256 + hd 14) cmap.1 cmap.2.1 with
  | none => none
  | some (d, ch, pos') =>
    let img : tga_image :=
      { width := hd 13 * 256 + hd 12, height := hd 15 * 256 + hd 14, channels := ch, data := d }
    let img := if hd 9 * 256 + hd 8 ≠ 0 then flip_tga_horizontally img else img
    let img := if hd 11 * 256 + hd 10 ≠ 0 then flip_tga_vertically img else img
    some (img, pos')

/-- `load_tga2` on a byte stream.  Returns the (possibly updated) image struct, the
success flag, and the final read position.  On every failure path the caller's
struct is returned untouched: in the source, `ptga`'s fields are only assigned
inside branch bodies that end in `success = true`, and `width`/`height`/`channels`
only after the `!success` check. -/
def load_tga2 (bytes : List Nat) (ptga : tga_image) : tga_image × Bool × Nat :=
  if bytes.getD 2 0 = 0 then (ptga, false, 18)
  else
    match load_body bytes with
    | none => (ptga, false, (cmap_info bytes).2.2)
    | some (img, pos') => (img, true, pos')

/-!  ## The encoder (`write_tga`)

The output is modelled as the list of the bytes `fwrite` has emitted; `write_tga`
returns the success flag together with that list (empty when the function returned
before writing anything).

The four RLE branches of the source share one control flow, differing only in the
pixel-equality test and in the payload bytes of the two packet kinds; they are
embedded through one scan parameterised by those three functions, emitting abstract
packets that a separate serialisation function turns into the bytes written, using
exactly the source's `rle_id` byte arithmetic. -/

/-- One RLE packet as emitted by the encoder: a run packet remembers the final
`duplicates` counter (the packet covers `duplicates+1` pixels), a raw packet the
final `different` counter (the packet covers `different+1` pixels). -/
inductive Packet where
  | run (dups : Nat) (payload : List Nat)
  | raw (diff : Nat) (payload : List Nat)
deriving DecidableEq

/-- Pixels covered by a packet. -/
def Packet.pixelCount : Packet → Nat
  | .run dups _ => dups + 1
  | .raw diff _ => diff + 1

/-- The header byte the source computes: for a run packet
`rle_id = duplicates+1; rle_id |= 0x80; rle_id--`, for a raw packet
`rle_id = different+1; rle_id--`, all on a `byte` (wrap-around spelled out). -/
def serializePacket : Packet → List Nat
  | .run dups payload => ((((dups + 1) % 256) ||| 0x80) - 1) % 256 :: payload
  | .raw diff payload => (((diff + 1) % 256 + 255) % 256) :: payload

/-- Serialise a packet stream. -/
def serializePackets (ps : List Packet) : List Nat := ps.flatMap serializePacket

/-- Total pixels covered by a packet stream. -/
def totalPixels (ps : List Packet) : Nat := (ps.map Packet.pixelCount).sum

/-- One iteration of the shared RLE scan at row-local column `j` (flat pixel
position `rowBase + j`).  Mirrors the source's branch order:
duplicate-counting, run-packet flush, different-counting with the back-off
(`different--; j--; index -= stride`) that falls through to the raw-packet write
and then re-processes the same column, and the raw-packet flush. -/
def rle_row (w : Nat) (eqp : Nat → Nat → Bool) (runPayload : Nat → List Nat)
    (rawPayload : Nat → Nat → List Nat) (rowBase : Nat) :
    Nat → Nat → Nat → Nat → List Packet → List Packet × Nat × Nat
  | 0, _, dup, diff, out => (out, dup, diff)
  | fuel + 1, j, dup, diff, out =>
    if j < w then
      let p := rowBase + j
      if diff = 0 ∧ j + 1 < w ∧ eqp p (p + 1) ∧ dup + 1 < 128 then
        rle_row w eqp runPayload rawPayload rowBase fuel (j + 1) (dup + 1) diff out
      else if dup ≠ 0 then
        rle_row w eqp runPayload rawPayload rowBase fuel (j + 1) 0 diff
          (out ++ [.run dup (runPayload p)])
      else if diff + 1 < 128 ∧ j + 1 < w ∧ ¬ eqp p (p + 1) then
        rle_row w eqp runPayload rawPayload rowBase fuel (j + 1) dup (diff + 1) out
      else if diff + 1 < 128 ∧ j + 1 < w then
        rle_row w eqp runPayload rawPayload rowBase fuel j dup 0
          (out ++ [.raw (diff - 1) (rawPayload (p - 1) (diff - 1))])
      else
        rle_row w eqp runPayload rawPayload rowBase fuel (j + 1) dup 0
          (out ++ [.raw diff (rawPayload p diff)])
    else (out, dup, diff)

/-- The full RLE scan: rows in order, `duplicates`/`different` carried across rows
as the source's locals are.  Each row iterates at most `2*width` times (a back-off
repeats one column once before progressing), so fuel `2*width+1` per row is exact. -/
def rle_scan (w h : Nat) (eqp : Nat → Nat → Bool) (runPayload : Nat → List Nat)
    (rawPayload : Nat → Nat → List Nat) : List Packet :=
  ((List.range h).foldl
    (fun acc i =>
      rle_row w eqp runPayload rawPayload (i * w) (2 * w + 1) 0 acc.2.1 acc.2.2 acc.1)
    ([], 0, 0)).1

/-- Pixel-equality test of the true-colour RLE branches: compare channels 0, 1, 2
and, with four channels, channel 3 (`p`, `q` flat pixel positions). -/
def pix_dup (d : Buf) (ch p q : Nat) : Bool :=
  d (p * ch + 0) = d (q * ch + 0) ∧ d (p * ch + 1) = d (q * ch + 1) ∧
    d (p * ch + 2) = d (q * ch + 2) ∧ (ch = 4 → d (p * ch + 3) = d (q * ch + 3))

/-- File-order (B,G,R[,A]) bytes of the canonical pixel at flat position `p`. -/
def bgra (d : Buf) (ch p : Nat) : List Nat :=
  [d (p * ch + 2), d (p * ch + 1), d (p * ch + 0)] ++
    (if ch = 4 then [d (p * ch + 3)] else [])

/-- Raw-packet payload of the 24/32-bit RLE branch: pixels
`p - diff, …, p` in file order. -/
def rgb_raw_payload (d : Buf) (ch p diff : Nat) : List Nat :=
  (List.range (diff + 1)).flatMap fun k => bgra d ch (p - (diff - k))

/-- The 5-5-5(+alpha bit) packing of the canonical pixel at flat position `p`
(`pixel |= data>>3<<10` etc.; the alpha bit is set iff the alpha byte is non-zero,
and always set without an alpha channel). -/
def pack16 (d : Buf) (ch p : Nat) : Nat :=
  ((d (p * ch + 0) >>> 3) <<< 10) |||
    ((d (p * ch + 1) >>> 3) <<< 5) |||
    (d (p * ch + 2) >>> 3) |||
    (if ch = 4 then (if d (p * ch + 3) ≠ 0 then 0x8000 else 0) else 0x8000)

/-- A 16-bit word as the two bytes `fwrite(&word, sizeof(word), …)` emits
(little-endian). -/
def word16le (v : Nat) : List Nat := [v % 256, v / 256 % 256]

/-- `rgb2bw`: luminance `(R+G+B)/3` in the low byte, alpha (or 255) in the high
byte. -/
def rgb2bw (d : Buf) (ch p : Nat) : Nat :=
  ((d (p * ch + 0) + d (p * ch + 1) + d (p * ch + 2)) / 3) |||
    ((if ch = 4 then d (p * ch + 3) % 256 else 255) <<< 8)

/-- One step of the palette scan: linear search of the palette (entries stored in
file order B,G,R[,A]) with the source's channel-by-channel comparisons; on a miss
the pixel's channels are appended as a new entry.  `color_data[pixel]` receives the
(byte-truncated) palette index. -/
def pal_step (d : Buf) (ch : Nat) (st : List (List Nat) × Buf) (pixel : Nat) :
    List (List Nat) × Buf :=
  let i := pixel * ch
  let e := fun (ent : List Nat) (k : Nat) => ent.getD k 0
  match st.1.findIdx? (fun ent =>
      d (i + 2) = e ent 0 ∧ d (i + 1) = e ent 1 ∧ d (i + 0) = e ent 2 ∧
        (ch = 4 → d (i + 3) = e ent 3)) with
  | some color => (st.1, updB st.2 pixel (color % 256))
  | none =>
    (st.1 ++ [[d (i + 2), d (i + 1), d (i + 0)] ++ (if ch = 4 then [d (i + 3)] else [])],
      updB st.2 pixel (st.1.length % 256))

/-- The palette build of `write_tga` over all `width*height` pixels: the ordered
palette (its length is the source's `colors` counter) and the per-pixel index
buffer `color_data`. -/
def build_palette (d : Buf) (ch npix : Nat) : List (List Nat) × Buf :=
  (List.range npix).foldl (pal_step d ch) ([], zeroBuf)

/-- The output subtypes of tga.h handled by `write_tga` (the header's
`TGA_BW8`/`TGA_BW8_RLE` values have no branch in `write_tga` and leave
`image_type`/`bits` uninitialised, so they are not modelled). -/
inductive tga_type where
  | TGA_MAPPED | TGA_RGB | TGA_RGB16 | TGA_BW
  | TGA_MAPPED_RLE | TGA_RGB_RLE | TGA_RGB16_RLE | TGA_BW_RLE
deriving DecidableEq

export tga_type (TGA_MAPPED TGA_RGB TGA_RGB16 TGA_BW TGA_MAPPED_RLE TGA_RGB_RLE
  TGA_RGB16_RLE TGA_BW_RLE)

/-- The packet stream the 24/32-bit true-colour RLE branch emits. -/
def rgb_rle_packets (d : Buf) (ch w h : Nat) : List Packet :=
  rle_scan w h (pix_dup d ch) (fun p => bgra d ch p) (rgb_raw_payload d ch)

/-- The packet stream the 15/16-bit true-colour RLE branch emits (equality is
tested on the canonical bytes, payloads are packed words). -/
def rgb16_rle_packets (d : Buf) (ch w h : Nat) : List Packet :=
  rle_scan w h (pix_dup d ch) (fun p => word16le (pack16 d ch p))
    (fun p diff => (List.range (diff + 1)).flatMap fun k => word16le (pack16 d ch (p - (diff - k))))

/-- The packet stream the black-and-white RLE branch emits, over the precomputed
`bw_data` words. -/
def bw_rle_packets (d : Buf) (ch w h : Nat) : List Packet :=
  let bw := fun p => rgb2bw d ch p
  rle_scan w h (fun p q => bw p = bw q) (fun p => word16le (bw p))
    (fun p diff => (List.range (diff + 1)).flatMap fun k => word16le (bw (p - (diff - k))))

/-- The packet stream the colour-mapped RLE branch emits, over the palette index
buffer `color_data`. -/
def mapped_rle_packets (cd : Buf) (w h : Nat) : List Packet :=
  rle_scan w h (fun p q => cd p = cd q) (fun p => [cd p])
    (fun p diff => (List.range (diff + 1)).map fun k => cd (p - (diff - k)))

/-- The 18-byte header `write_tga` emits.  The casts are the source's, including
`(unsigned char)color_map_length / 256` (cast before division, so the byte is
`(len % 256) / 256`), unlike the parenthesised width/height fields. -/
def write_header (w h : Nat) (color_map_type first_entry_index color_map_length
    color_map_entry_size image_type bits : Nat) : List Nat :=
  [0, color_map_type, image_type,
    first_entry_index % 256 % 256,
    first_entry_index % 256 / 256,
    color_map_length % 256 % 256,
    color_map_length % 256 / 256,
    color_map_entry_size, 0, 0, 0, 0,
    w % 256,
    w / 256 % 256,
    h % 256,
    h / 256 % 256,
    bits,
    0]

/-- `write_tga`.  Returns the success flag and the bytes written (empty on
failure: the palette-overflow `return false` precedes every `fwrite`). -/
def write_tga (ptga : tga_image) (type : tga_type) : Bool × List Nat :=
  let w := ptga.width
  let h := ptga.height
  let ch := ptga.channels
  let d := ptga.data
  let mapped := type = TGA_MAPPED ∨ type = TGA_MAPPED_RLE
  let pal := if mapped then build_palette d ch (w * h) else ([], zeroBuf)
  let palette := pal.1
  let cd := pal.2
  let colors := palette.length
  if mapped ∧ colors > 256 then (false, [])
  else
    let image_type : Nat :=
      match type with
      | TGA_MAPPED => 1 | TGA_MAPPED_RLE => 9
      | TGA_RGB => 2 | TGA_RGB_RLE => 10
      | TGA_RGB16 => 2 | TGA_RGB16_RLE => 10
      | TGA_BW => 3 | TGA_BW_RLE => 11
    let bits : Nat :=
      match type with
      | TGA_MAPPED | TGA_MAPPED_RLE => 8
      | TGA_RGB | TGA_RGB_RLE => ch * 8 % 256
      | TGA_RGB16 | TGA_RGB16_RLE => if ch = 4 then 16 else 15
      | TGA_BW | TGA_BW_RLE => 16
    let header := write_header w h (if mapped then 1 else 0) 0 (if mapped then colors else 0)
      (if mapped then ch * 8 % 256 else 0) image_type bits
    let body : List Nat :=
      match type with
      | TGA_MAPPED =>
        palette.flatten ++ (List.range (w * h)).map cd
      | TGA_RGB =>
        (List.range (w * h)).flatMap fun p => bgra d ch p
      | TGA_RGB16 =>
        (List.range (w * h)).flatMap fun p => word16le (pack16 d ch p)
      | TGA_BW =>
        (List.range (w * h)).flatMap fun p => word16le (rgb2bw d ch p)
      | TGA_MAPPED_RLE =>
        palette.flatten ++ serializePackets (mapped_rle_packets cd w h)
      | TGA_RGB_RLE =>
        serializePackets (rgb_rle_packets d ch w h)
      | TGA_RGB16_RLE =>
        serializePackets (rgb16_rle_packets d ch w h)
      | TGA_BW_RLE =>
        serializePackets (bw_rle_packets d ch w h)
    (true, header ++ body)

/-!  ## Concrete instances used by the claim theorems -/

/-- A default image struct for decode calls whose input struct is irrelevant. -/
def blank : tga_image := ⟨0, 0, 0, zeroBuf⟩

/-- 1×1 three-channel image with pixel (7,0,0): its low three red bits are lost by
the 15/16-bit packing. -/
def c1_img : tga_image := ⟨1, 1, 3, bufWrite zeroBuf 0 [7, 0, 0]⟩

/-- An 8-bit black-and-white file: header with image type 3, 8 bits per pixel,
1×1, one luminance byte. -/
def c2_stream : List Nat :=
  [0, 0, 3, 0, 0, 0, 0, 0, 0, 0, 0, 0, 1, 0, 1, 0, 8, 0] ++ [77]

/-- A truncated run-length true-colour file: 2×1 at 24 bits per pixel, but the
packet stream holds a single raw packet of one pixel — one pixel short. -/
def c3_stream : List Nat :=
  [0, 0, 10, 0, 0, 0, 0, 0, 0, 0, 0, 0, 2, 0, 1, 0, 24, 0] ++ [0x00, 1, 2, 3]

/-- The 18-byte header of a black-and-white (image type 3) file, 16 bits per
pixel, no id field, no colour map, zero origins, dimensions `w × h`
little-endian. -/
def bw16_header (w h : Nat) : List Nat :=
  [0, 0, 3, 0, 0, 0, 0, 0, 0, 0, 0, 0, w % 256, w / 256, h % 256, h / 256, 16, 0]

/-- 2×1 three-channel image whose two pixels are both (R=255,G=0,B=0). -/
def c4_img : tga_image := ⟨2, 1, 3, bufWrite zeroBuf 0 [255, 0, 0, 255, 0, 0]⟩

/-- 1×1 four-channel image with pixel (R=248,G=0,B=0,A=0). -/
def c5_img : tga_image := ⟨1, 1, 4, bufWrite zeroBuf 0 [248, 0, 0, 0]⟩

/-- The channel tuples of the first `npix` pixels, in canonical R,G,B[,A] order. -/
def pixelTuples (d : Buf) (ch npix : Nat) : List (List Nat) :=
  (List.range npix).map fun p => (List.range ch).map fun k => d (p * ch + k)

/-- Number of distinct channel tuples of an image. -/
def distinctColors (ptga : tga_image) : Nat :=
  (pixelTuples ptga.data ptga.channels (ptga.width * ptga.height)).dedup.length

/-- 257×1 three-channel image whose 257 pixels are pairwise distinct colours. -/
def c6_img : tga_image :=
  ⟨257, 1, 3, fun idx =>
    if idx % 3 = 0 then idx / 3 % 256 else if idx % 3 = 1 then idx / 3 / 256 else 0⟩

/-- 2×2 three-channel image with three distinct colours. -/
def c6_small : tga_image := ⟨2, 2, 3, bufWrite zeroBuf 0 [1, 2, 3, 4, 5, 6, 1, 2, 3, 7, 8, 9]⟩

/-- No row of the image contains 128 consecutive equal pixels.  (When one does,
the `rle_id = (duplicates+1) | 0x80; rle_id--` arithmetic of the encoder turns the
run packet of count 128 into the header byte 127 — a raw packet — so the RLE
round trip fails; see the C1 analysis.) -/
def no_long_runs (d : Buf) (ch w h : Nat) : Prop :=
  ∀ r, r < h → ∀ j, j < w → j + 128 ≤ w →
    ∃ t, t < 127 ∧ pix_dup d ch (r * w + j + t) (r * w + j + t + 1) = false

/-- The packet stream `ps` replays, through the 24/32-bit RLE decoder, exactly the
pixels `s, …, s+n-1` of the canonical buffer `d`: run packets carry the common
file-order pixel value of an equal stretch (with the count small enough for the
7-bit field), raw packets carry the pixels verbatim in file order. -/
inductive Covers (d : Buf) (ch : Nat) : List Packet → Nat → Nat → Prop where
  | nil (s : Nat) : Covers d ch [] s 0
  | run (s m dup : Nat) (ps : List Packet) :
      1 ≤ dup → dup ≤ 126 →
      (∀ t, t ≤ dup → bgra d ch (s + t) = bgra d ch (s + dup)) →
      Covers d ch ps (s + (dup + 1)) m →
      Covers d ch (Packet.run dup (bgra d ch (s + dup)) :: ps) s (dup + 1 + m)
  | raw (s m diff : Nat) (ps : List Packet) :
      diff ≤ 127 →
      Covers d ch ps (s + (diff + 1)) m →
      Covers d ch (Packet.raw diff (rgb_raw_payload d ch (s + diff) diff) :: ps) s (diff + 1 + m)

/-!  ## Swap-loop machinery

A loop of `swap_byte` calls over pairwise-disjoint index pairs acts on a buffer by
precomposition with the permutation `permOf`; the lemmas below evaluate that
permutation pointwise. -/

theorem swap_byte_eq (d : Buf) (a b : Nat) : swap_byte d a b = fun i => d (swapIdx a b i) := by
  funext i
  unfold swap_byte swapIdx
  by_cases h1 : i = a <;> by_cases h2 : i = b
  · simp [h1, h2]
  · simp [h1, h2]
  · subst h2
    by_cases h3 : i = a <;> simp [h3]
  · simp [h1, h2]

theorem swapsOf_eq (ps : List (Nat × Nat)) (d : Buf) :
    swapsOf ps d = fun i => d (permOf ps i) := by
  induction ps generalizing d with
  | nil => rfl
  | cons p t ih =>
    funext i
    show swapsOf t (swap_byte d p.1 p.2) i = d (swapIdx p.1 p.2 (permOf t i))
    rw [ih, swap_byte_eq]

theorem permOf_append (l₁ l₂ : List (Nat × Nat)) (i : Nat) :
    permOf (l₁ ++ l₂) i = permOf l₁ (permOf l₂ i) := by
  induction l₁ with
  | nil => rfl
  | cons p t ih => simp only [List.cons_append, permOf, List.append_eq, ih]

theorem permOf_untouched {ps : List (Nat × Nat)} {i : Nat} (h : Untouched ps i) :
    permOf ps i = i := by
  induction ps with
  | nil => rfl
  | cons p t ih =>
    have hp := h p (List.mem_cons_self p t)
    have ht : Untouched t i := fun q hq => h q (List.mem_cons_of_mem p hq)
    simp only [permOf, ih ht, swapIdx, if_neg hp.1, if_neg hp.2]

theorem untouched_flatMap {F : Nat → List (Nat × Nat)} {m i : Nat}
    (h : ∀ t, t < m → Untouched (F t) i) : Untouched ((List.range m).flatMap F) i := by
  intro q hq
  rw [List.mem_flatMap] at hq
  obtain ⟨t, ht, hqt⟩ := hq
  exact h t (List.mem_range.mp ht) q hqt

theorem untouched_map {f : Nat → Nat × Nat} {m i : Nat}
    (h : ∀ t, t < m → i ≠ (f t).1 ∧ i ≠ (f t).2) : Untouched ((List.range m).map f) i := by
  intro q hq
  rw [List.mem_map] at hq
  obtain ⟨t, ht, hqt⟩ := hq
  exact hqt ▸ h t (List.mem_range.mp ht)

theorem permOf_range_flatMap (F : Nat → List (Nat × Nat)) (n t0 i : Nat) (h0 : t0 < n)
    (hother : ∀ t, t < n → t ≠ t0 →
      Untouched (F t) i ∧ Untouched (F t) (permOf (F t0) i)) :
    permOf ((List.range n).flatMap F) i = permOf (F t0) i := by
  induction n with
  | zero => omega
  | succ m ih =>
    rw [List.range_succ, List.flatMap_append, permOf_append]
    by_cases hm : t0 = m
    · subst hm
      have : permOf ([t0].flatMap F) i = permOf (F t0) i := by
        simp only [List.flatMap_cons, List.flatMap_nil, List.append_nil]
      rw [this]
      refine permOf_untouched (untouched_flatMap fun t ht => ?_)
      exact (hother t (by omega) (by omega)).2
    · have h1 : permOf ([m].flatMap F) i = i := by
        simp only [List.flatMap_cons, List.flatMap_nil, List.append_nil]
        exact permOf_untouched (hother m (by omega) (by omega)).1
      rw [h1]
      exact ih (by omega) fun t ht hne => hother t (by omega) hne

theorem permOf_range_map (f : Nat → Nat × Nat) (n t0 i : Nat) (h0 : t0 < n)
    (hother : ∀ t, t < n → t ≠ t0 →
      (i ≠ (f t).1 ∧ i ≠ (f t).2) ∧
        (swapIdx (f t0).1 (f t0).2 i ≠ (f t).1 ∧ swapIdx (f t0).1 (f t0).2 i ≠ (f t).2)) :
    permOf ((List.range n).map f) i = swapIdx (f t0).1 (f t0).2 i := by
  induction n with
  | zero => omega
  | succ m ih =>
    rw [List.range_succ, List.map_append, permOf_append]
    by_cases hm : t0 = m
    · subst hm
      have h1 : permOf ([f t0]) i = swapIdx (f t0).1 (f t0).2 i := rfl
      simp only [List.map_cons, List.map_nil, h1]
      refine permOf_untouched (untouched_map fun t ht => ?_)
      exact (hother t (by omega) (by omega)).2
    · have h1 : permOf ([f m]) i = swapIdx (f m).1 (f m).2 i := rfl
      simp only [List.map_cons, List.map_nil, h1]
      have hfix := (hother m (by omega) (by omega)).1
      rw [swapIdx, if_neg hfix.1, if_neg hfix.2]
      exact ih (by omega) fun t ht hne => hother t (by omega) hne

theorem decomp_inj {c a k a' k' : Nat} (hk : k < c) (hk' : k' < c)
    (h : a * c + k = a' * c + k') : a = a' ∧ k = k' := by
  have hc : 0 < c := Nat.lt_of_le_of_lt (Nat.zero_le k) hk
  have ha : a = a' := by
    have h1 : (a * c + k) / c = a := by
      rw [Nat.mul_comm a c, Nat.mul_add_div hc, Nat.div_eq_of_lt hk, Nat.add_zero]
    have h2 : (a' * c + k') / c = a' := by
      rw [Nat.mul_comm a' c, Nat.mul_add_div hc, Nat.div_eq_of_lt hk', Nat.add_zero]
    rw [← h1, ← h2, h]
  refine ⟨ha, ?_⟩
  subst ha
  omega

theorem swapIdx_fst (a b : Nat) : swapIdx a b a = b := by simp [swapIdx]

theorem swapIdx_snd (a b : Nat) : swapIdx a b b = a := by
  by_cases h : b = a <;> simp [swapIdx, h]

theorem idx_ne_col {c a j1 k1 j2 k2 : Nat} (hk1 : k1 < c) (hk2 : k2 < c) (hne : j1 ≠ j2) :
    (a + j1) * c + k1 ≠ (a + j2) * c + k2 := by
  intro h
  obtain ⟨h1, _⟩ := decomp_inj hk1 hk2 h
  omega

theorem idx_ne_k {c A k1 k2 : Nat} (hne : k1 ≠ k2) : A * c + k1 ≠ A * c + k2 := by omega

theorem idx_ne_row {w c t j1 k1 s j2 k2 : Nat} (hj1 : j1 < w) (hk1 : k1 < c)
    (hj2 : j2 < w) (hk2 : k2 < c) (hne : t ≠ s) :
    ((t * w) + j1) * c + k1 ≠ ((s * w) + j2) * c + k2 := by
  intro h
  obtain ⟨h1, _⟩ := decomp_inj hk1 hk2 h
  obtain ⟨h2, _⟩ := decomp_inj hj1 hj2 h1
  exact hne h2

/-- `swapIdx` is an involution. -/
theorem swapIdx_invol (a b x : Nat) : swapIdx a b (swapIdx a b x) = x := by
  unfold swapIdx
  split_ifs <;> omega

/-- Swaps over disjoint pairs commute. -/
theorem swapIdx_comm_of_disj (a b u v x : Nat) (h1 : a ≠ u) (h2 : a ≠ v) (h3 : b ≠ u)
    (h4 : b ≠ v) : swapIdx u v (swapIdx a b x) = swapIdx a b (swapIdx u v x) := by
  unfold swapIdx
  split_ifs <;> omega

/-- A swap at `a, b` commutes past a swap list that never touches `a` or `b`. -/
theorem permOf_swapIdx_comm (a b : Nat) :
    ∀ ps : List (Nat × Nat), (∀ q ∈ ps, a ≠ q.1 ∧ a ≠ q.2 ∧ b ≠ q.1 ∧ b ≠ q.2) →
      ∀ x, permOf ps (swapIdx a b x) = swapIdx a b (permOf ps x) := by
  intro ps
  induction ps with
  | nil => intro _ x; rfl
  | cons q t ih =>
    intro hq x
    obtain ⟨h1, h2, h3, h4⟩ := hq q (List.mem_cons_self q t)
    show swapIdx q.1 q.2 (permOf t (swapIdx a b x)) = swapIdx a b (swapIdx q.1 q.2 (permOf t x))
    rw [ih (fun r hr => hq r (List.mem_cons_of_mem q hr)) x]
    exact swapIdx_comm_of_disj a b q.1 q.2 (permOf t x) h1 h2 h3 h4

/-- A loop of swaps over pairwise-disjoint index pairs is an involution. -/
theorem permOf_invol {ps : List (Nat × Nat)} (hp : List.Pairwise disjPair ps) (i : Nat) :
    permOf ps (permOf ps i) = i := by
  induction hp with
  | nil => rfl
  | @cons p t hhead htail ih =>
    show swapIdx p.1 p.2 (permOf t (swapIdx p.1 p.2 (permOf t i))) = i
    rw [permOf_swapIdx_comm p.1 p.2 t (fun q hq => hhead q hq) (permOf t i), ih]
    exact swapIdx_invol p.1 p.2 i

/-- Pairwise property of a `flatMap` over `List.range`, from pairwiseness of each
block and a cross-block condition. -/
theorem pairwise_flatMap_range {α : Type} (R : α → α → Prop) (F : Nat → List α) :
    ∀ n, (∀ t, t < n → List.Pairwise R (F t)) →
      (∀ s t, s < t → t < n → ∀ a ∈ F s, ∀ b ∈ F t, R a b) →
      List.Pairwise R ((List.range n).flatMap F) := by
  intro n
  induction n with
  | zero => intro _ _; simp
  | succ m ih =>
    intro h1 h2
    rw [List.range_succ, List.flatMap_append, List.pairwise_append]
    refine ⟨ih (fun t ht => h1 t (by omega)) (fun s t hst ht => h2 s t hst (by omega)),
      ?_, ?_⟩
    · simp only [List.flatMap_cons, List.flatMap_nil, List.append_nil]
      exact h1 m (by omega)
    · intro a ha b hb
      rw [List.mem_flatMap] at ha
      obtain ⟨s, hs, ha⟩ := ha
      have hsr := List.mem_range.mp hs
      simp only [List.flatMap_cons, List.flatMap_nil, List.append_nil] at hb
      exact h2 s m hsr (by omega) a ha b hb

/-- Pairwise property of a `map` over `List.range`. -/
theorem pairwise_map_range {α : Type} (R : α → α → Prop) (f : Nat → α) :
    ∀ n, (∀ s t, s < t → t < n → R (f s) (f t)) →
      List.Pairwise R ((List.range n).map f) := by
  intro n
  induction n with
  | zero => intro _; simp
  | succ m ih =>
    intro hst
    rw [List.range_succ, List.map_append, List.pairwise_append]
    refine ⟨ih (fun s t h1 h2 => hst s t h1 (by omega)), by simp, ?_⟩
    intro a ha b hb
    rw [List.mem_map] at ha
    obtain ⟨s, hs, rfl⟩ := ha
    have hsr := List.mem_range.mp hs
    simp only [List.map_cons, List.map_nil, List.mem_singleton] at hb
    subst hb
    exact hst s m hsr (by omega)

/-- The `flip_tga_horizontally` swap pairs are pairwise disjoint: each swapped
column pair `(j, w-j-1)` with `j < w/2` lies in one row, the left columns are
below `w/2`, the right columns at or above it. -/
theorem hpairs_pairwise (w h c : Nat) : List.Pairwise disjPair (hpairs w h c) := by
  rw [hpairs]
  refine pairwise_flatMap_range _ _ h (fun i hi => ?_) (fun t s hts hs => ?_)
  · refine pairwise_flatMap_range _ _ (w / 2) (fun j hj => ?_) (fun j1 j2 hj12 hj2 => ?_)
    · refine pairwise_map_range _ _ c (fun k1 k2 hk12 hk2 => ?_)
      exact ⟨idx_ne_k (by omega), idx_ne_col (by omega) hk2 (by omega),
        idx_ne_col (by omega) hk2 (by omega), idx_ne_k (by omega)⟩
    · intro a ha b hb
      rw [List.mem_map] at ha hb
      obtain ⟨k1, hk1, rfl⟩ := ha
      obtain ⟨k2, hk2, rfl⟩ := hb
      have hk1r := List.mem_range.mp hk1
      have hk2r := List.mem_range.mp hk2
      exact ⟨idx_ne_col hk1r hk2r (by omega), idx_ne_col hk1r hk2r (by omega),
        idx_ne_col hk1r hk2r (by omega), idx_ne_col hk1r hk2r (by omega)⟩
  · intro a ha b hb
    rw [List.mem_flatMap] at ha hb
    obtain ⟨j1, hj1, ha⟩ := ha
    obtain ⟨j2, hj2, hb⟩ := hb
    rw [List.mem_map] at ha hb
    obtain ⟨k1, hk1, rfl⟩ := ha
    obtain ⟨k2, hk2, rfl⟩ := hb
    have hj1r := List.mem_range.mp hj1
    have hj2r := List.mem_range.mp hj2
    have hk1r := List.mem_range.mp hk1
    have hk2r := List.mem_range.mp hk2
    exact ⟨idx_ne_row (by omega) hk1r (by omega) hk2r (by omega),
      idx_ne_row (by omega) hk1r (by omega) hk2r (by omega),
      idx_ne_row (by omega) hk1r (by omega) hk2r (by omega),
      idx_ne_row (by omega) hk1r (by omega) hk2r (by omega)⟩

/-- The `flip_tga_vertically` swap pairs are pairwise disjoint. -/
theorem vpairs_pairwise (w h c : Nat) : List.Pairwise disjPair (vpairs w h c) := by
  rw [vpairs]
  have hne_of : ∀ x j1 y j2, x < w * c → y < w * c → (x ≠ y ∨ j1 ≠ j2) →
      x + w * c * j1 ≠ y + w * c * j2 := by
    intro x j1 y j2 hx hy hor hcon
    have e1 : j1 * (w * c) = w * c * j1 := by ring
    have e2 : j2 * (w * c) = w * c * j2 := by ring
    have h2 : j1 * (w * c) + x = j2 * (w * c) + y := by omega
    obtain ⟨ha, hb⟩ := decomp_inj hx hy h2
    rcases hor with h3 | h3
    · exact h3 hb
    · exact h3 ha
  refine pairwise_flatMap_range _ _ (w * c) (fun i hi => ?_) (fun t s hts hs => ?_)
  · refine pairwise_map_range _ _ (h / 2) (fun j1 j2 hj12 hj2 => ?_)
    have hir := hi
    exact ⟨hne_of i j1 i j2 hir hir (Or.inr (by omega)),
      hne_of i j1 i (h - j2 - 1) hir hir (Or.inr (by omega)),
      hne_of i (h - j1 - 1) i j2 hir hir (Or.inr (by omega)),
      hne_of i (h - j1 - 1) i (h - j2 - 1) hir hir (Or.inr (by omega))⟩
  · intro a ha b hb
    rw [List.mem_map] at ha hb
    obtain ⟨j1, hj1, rfl⟩ := ha
    obtain ⟨j2, hj2, rfl⟩ := hb
    exact ⟨hne_of t j1 s j2 (by omega) hs (Or.inl (by omega)),
      hne_of t j1 s (h - j2 - 1) (by omega) hs (Or.inl (by omega)),
      hne_of t (h - j1 - 1) s j2 (by omega) hs (Or.inl (by omega)),
      hne_of t (h - j1 - 1) s (h - j2 - 1) (by omega) hs (Or.inl (by omega))⟩

/-!  ## Claim theorems -/

/-- Claim C1, counterexample: the round-trip is not byte-identical for every
supported subtype.  The 16-bit true-colour subtype truncates each channel to five
bits: the 1×1 image with pixel (7,0,0) decodes back from its own encoding as
(0,0,0), while the decode itself succeeds. -/
theorem C1_counterexample :
    (load_tga2 (write_tga c1_img TGA_RGB16).2 blank).2.1 = true ∧
      tga_pixels (load_tga2 (write_tga c1_img TGA_RGB16).2 blank).1 ≠ tga_pixels c1_img := by
  decide

/-- Claim C2, counterexample: an 8-bit black-and-white file (image type 3, 8 bits
per pixel) is not decoded at all — the black-and-white branch of `load_tga2` only
accepts 16 bits per pixel, so the load fails instead of producing a 3-channel
image. -/
theorem C2_counterexample : (load_tga2 c2_stream blank).2.1 = false := by
  decide

/-- Claim C3 (code bug): on a truncated RLE packet stream the decoder does not
fail — no `read_file` result is ever checked.  The 2×1 24-bit RLE file whose data
holds a single one-pixel raw packet still loads with `success = true`; the decoder
attempted reads past the end of the 22-byte file (the final position equals the
file length only because the model's failed reads return nothing), and the missing
pixel is whatever the malloc'ed buffer held (zero in the model). -/
theorem C3_truncated_stream_succeeds :
    (load_tga2 c3_stream blank).2.1 = true ∧
      tga_pixels (load_tga2 c3_stream blank).1 = [3, 2, 1, 0, 0, 0] := by
  decide

/-- Claim C4: encoding the 2×1 all-(255,0,0) three-channel image with the RLE
true-colour subtype emits exactly one run packet covering 2 pixels whose stored
value is (0,0,255) in file order — the packet stream serialises to `0x81,0,0,255`
after the 18-byte header — and decoding that output returns the two original
canonical pixels. -/
theorem C4_run_packet_roundtrip :
    rgb_rle_packets c4_img.data 3 2 1 = [.run 1 [0, 0, 255]] ∧
      (write_tga c4_img TGA_RGB_RLE).2 =
        [0, 0, 10, 0, 0, 0, 0, 0, 0, 0, 0, 0, 2, 0, 1, 0, 24, 0] ++ [0x81, 0, 0, 255] ∧
      (load_tga2 (write_tga c4_img TGA_RGB_RLE).2 blank).2.1 = true ∧
      tga_pixels (load_tga2 (write_tga c4_img TGA_RGB_RLE).2 blank).1 =
        [255, 0, 0, 255, 0, 0] := by
  decide

/-- Claim C5: encoding the 1×1 four-channel pixel (248,0,0,0) with the non-RLE
16-bit true-colour subtype packs it as the word `0b0111110000000000` (alpha bit
clear, emitted little-endian), and decoding the output returns the canonical
pixel (248,0,0,0). -/
theorem C5_rgb16_roundtrip :
    pack16 c5_img.data 4 0 = 0b0111110000000000 ∧
      (write_tga c5_img TGA_RGB16).2 =
        [0, 0, 2, 0, 0, 0, 0, 0, 0, 0, 0, 0, 1, 0, 1, 0, 16, 0] ++ [0x00, 0x7c] ∧
      (load_tga2 (write_tga c5_img TGA_RGB16).2 blank).2.1 = true ∧
      (load_tga2 (write_tga c5_img TGA_RGB16).2 blank).1.channels = 4 ∧
      tga_pixels (load_tga2 (write_tga c5_img TGA_RGB16).2 blank).1 = [248, 0, 0, 0] := by
  decide

/-- Claim C8: a header whose image-type byte (offset 2) is zero is rejected: the
load fails, the struct is untouched, and the final read position is 18 — only the
header was consumed, no id field, palette or pixel byte was read. -/
theorem C8_type_zero_rejected (bytes : List Nat) (ptga : tga_image)
    (_hlen : 18 ≤ bytes.length) (h2 : bytes.getD 2 0 = 0) :
    load_tga2 bytes ptga = (ptga, false, 18) := by
  unfold load_tga2
  rw [if_pos h2]

/-- Witness for C8 at a concrete 18-byte stream. -/
theorem C8_type_zero_rejected_witness :
    load_tga2 [0, 0, 0, 0, 0, 0, 0, 0, 0, 0, 0, 0, 1, 0, 1, 0, 24, 0] blank =
      (blank, false, 18) :=
  C8_type_zero_rejected _ _ (by decide) (by decide)

/-- Claim C10: whenever `load_tga2` fails, the caller's struct comes back exactly
as it went in — every failure path (image type 0, or a (type, bit-depth) pair no
branch accepts) returns before any field of `ptga` is assigned. -/
theorem C10_failure_unmodified (bytes : List Nat) (ptga : tga_image)
    (hfail : (load_tga2 bytes ptga).2.1 = false) :
    (load_tga2 bytes ptga).1 = ptga := by
  unfold load_tga2 at hfail ⊢
  split at hfail
  · split <;> rfl
  next h2 =>
    rw [if_neg h2]
    cases hb : load_body bytes with
    | none => rfl
    | some v => rw [hb] at hfail; simp at hfail

/-- Witness for C10 at an unsupported (type, bit-depth) pair: true-colour with 7
bits per pixel. -/
theorem C10_failure_unmodified_witness :
    (load_tga2 [0, 0, 2, 0, 0, 0, 0, 0, 0, 0, 0, 0, 1, 0, 1, 0, 7, 0] blank).1 = blank :=
  C10_failure_unmodified _ _ (by decide)

theorem permOf_hpairs_invol (w h c : Nat) (idx : Nat) :
    permOf (hpairs w h c) (permOf (hpairs w h c) idx) = idx :=
  permOf_invol (hpairs_pairwise w h c) idx

theorem permOf_vpairs_invol (w h c : Nat) (idx : Nat) :
    permOf (vpairs w h c) (permOf (vpairs w h c) idx) = idx :=
  permOf_invol (vpairs_pairwise w h c) idx

/-- Claim C9: each orientation flip is an involution — applying
`flip_tga_horizontally` twice, or `flip_tga_vertically` twice, returns the image
(including its whole pixel buffer) unchanged, for every width, height and channel
count. -/
theorem C9_flip_involution (ptga : tga_image) :
    flip_tga_horizontally (flip_tga_horizontally ptga) = ptga ∧
      flip_tga_vertically (flip_tga_vertically ptga) = ptga := by
  obtain ⟨w, h, c, d⟩ := ptga
  constructor
  · show tga_image.mk w h c (swapsOf (hpairs w h c) (swapsOf (hpairs w h c) d)) = _
    congr 1
    rw [swapsOf_eq, swapsOf_eq]
    funext idx
    show d (permOf (hpairs w h c) (permOf (hpairs w h c) idx)) = d idx
    rw [permOf_hpairs_invol]
  · show tga_image.mk w h c (swapsOf (vpairs w h c) (swapsOf (vpairs w h c) d)) = _
    congr 1
    rw [swapsOf_eq, swapsOf_eq]
    funext idx
    show d (permOf (vpairs w h c) (permOf (vpairs w h c) idx)) = d idx
    rw [permOf_vpairs_invol]

/-!  ## Buffer lemmas and the 16-bit black-and-white decode -/

theorem updB_at (d : Buf) (a v : Nat) : updB d a v a = v := by
  unfold updB
  rw [if_pos rfl]

theorem updB_ne (d : Buf) (a v i : Nat) (h : i ≠ a) : updB d a v i = d i := by
  unfold updB
  rw [if_neg h]

theorem bufWrite_eval (bs : List Nat) (d : Buf) (base idx : Nat) :
    bufWrite d base bs idx =
      if base ≤ idx ∧ idx < base + bs.length then bs.getD (idx - base) 0 else d idx := by
  induction bs generalizing d base with
  | nil =>
    show d idx = _
    rw [if_neg (by simp only [List.length_nil]; omega)]
  | cons b t ih =>
    show bufWrite (updB d base b) (base + 1) t idx = _
    rw [ih]
    by_cases h1 : base + 1 ≤ idx ∧ idx < base + 1 + t.length
    · rw [if_pos h1, if_pos (by simp only [List.length_cons]; omega)]
      have hs : idx - base = (idx - (base + 1)) + 1 := by omega
      rw [hs, List.getD_cons_succ]
    · rw [if_neg h1]
      by_cases h2 : idx = base
      · subst h2
        rw [updB_at, if_pos (by simp only [List.length_cons]; omega), Nat.sub_self,
          List.getD_cons_zero]
      · rw [updB_ne d base b idx h2, if_neg (by simp only [List.length_cons]; omega)]

theorem getD_lt_256 {l : List Nat} (h : ∀ b ∈ l, b < 256) (n : Nat) : l.getD n 0 < 256 := by
  rcases Nat.lt_or_ge n l.length with hlt | hge
  · rw [List.getD_eq_getElem l 0 hlt]
    exact h _ (List.getElem_mem hlt)
  · rw [List.getD_eq_default l 0 hge]
    omega

theorem mask255 (a b : Nat) (hb : b < 256) : (a * 256 + b) &&& 255 = b := by
  have h : (a * 256 + b) &&& 255 = (a * 256 + b) % 2 ^ 8 := Nat.and_pow_two_sub_one_eq_mod _ 8
  rw [h]
  omega

theorem shift8 (a b : Nat) (hb : b < 256) : (a * 256 + b) >>> 8 = a := by
  rw [Nat.shiftRight_eq_div_pow]
  omega

/-- Full evaluation of one in-place `bw2rgb` call of the non-RLE 16-bit
black-and-white decode loop: reading the word at byte offset `2t` and writing the
pixel at byte offset `4t` leaves `lo, lo, lo, hi` there, also for the aliased
first iteration (`t = 0`), because the final read is masked with `0xff`. -/
theorem bw2rgb_at_eval {d : Buf} {t lo hi : Nat}
    (hlo : d (t * 2) = lo) (hhi : d (t * 2 + 1) = hi) (hlo2 : lo < 256) (idx : Nat) :
    bw2rgb_at d (t * 2) (t * 4) idx =
      if idx = t * 4 + 3 then hi
      else if idx = t * 4 + 2 then lo
      else if idx = t * 4 + 1 then lo
      else if idx = t * 4 then lo
      else d idx := by
  simp only [bw2rgb_at]
  rw [updB_ne d (t * 4 + 3) _ (t * 2 + 1) (by omega), updB_ne d (t * 4 + 3) _ (t * 2) (by omega),
    hlo, hhi, shift8 hi lo hlo2, mask255 hi lo hlo2]
  rw [updB_ne _ (t * 4 + 2) _ (t * 2 + 1) (by omega), updB_ne _ (t * 4 + 2) _ (t * 2) (by omega),
    updB_ne _ (t * 4 + 3) _ (t * 2 + 1) (by omega), updB_ne _ (t * 4 + 3) _ (t * 2) (by omega),
    hlo, hhi, mask255 hi lo hlo2]
  rw [updB_ne _ (t * 4 + 1) _ (t * 2) (by omega), updB_ne _ (t * 4 + 2) _ (t * 2) (by omega),
    updB_ne _ (t * 4 + 3) _ (t * 2) (by omega), hlo, mask255 _ lo hlo2]
  simp only [Nat.add_zero]
  by_cases h3 : idx = t * 4 + 3
  · subst h3
    rw [updB_ne _ (t * 4) _ _ (by omega), updB_ne _ (t * 4 + 1) _ _ (by omega),
      updB_ne _ (t * 4 + 2) _ _ (by omega), updB_at, if_pos rfl]
  by_cases h2 : idx = t * 4 + 2
  · subst h2
    rw [updB_ne _ (t * 4) _ _ (by omega), updB_ne _ (t * 4 + 1) _ _ (by omega), updB_at,
      if_neg (by omega), if_pos rfl]
  by_cases h1 : idx = t * 4 + 1
  · subst h1
    rw [updB_ne _ (t * 4) _ _ (by omega), updB_at,
      if_neg (by omega), if_neg (by omega), if_pos rfl]
  by_cases h0 : idx = t * 4
  · subst h0
    rw [updB_at, if_neg (by omega), if_neg (by omega), if_neg (by omega), if_pos rfl]
  · rw [updB_ne _ (t * 4) _ _ h0, updB_ne _ (t * 4 + 1) _ _ h1,
      updB_ne _ (t * 4 + 2) _ _ h2, updB_ne _ (t * 4 + 3) _ _ h3,
      if_neg h3, if_neg h2, if_neg h1, if_neg h0]

/-- The whole descending 16-bit black-and-white expansion loop: positions below
`4t` hold the replicated luminance (low byte) and the alpha (high byte) of their
pixel's stored word; everything else is untouched. -/
theorem bw16_fold (payload : List Nat) (hvals : ∀ b ∈ payload, b < 256) (t : Nat) :
    ∀ d : Buf, (∀ i, i < 2 * t → d i = payload.getD i 0) →
    ∀ idx, ((List.range t).reverse.foldl (fun d i => bw2rgb_at d (i * 2) (i * 4)) d) idx =
      if idx < 4 * t then
        (if idx % 4 = 3 then payload.getD (2 * (idx / 4) + 1) 0
          else payload.getD (2 * (idx / 4)) 0)
      else d idx := by
  induction t with
  | zero =>
    intro d hd idx
    simp
  | succ t ih =>
    intro d hd idx
    have hrev : (List.range (t + 1)).reverse = t :: (List.range t).reverse := by
      rw [List.range_succ, List.reverse_append]
      rfl
    rw [hrev]
    show ((List.range t).reverse.foldl _ (bw2rgb_at d (t * 2) (t * 4))) idx = _
    have hlo : d (t * 2) = payload.getD (2 * t) 0 := by
      rw [hd (t * 2) (by omega)]
      have : t * 2 = 2 * t := by omega
      rw [this]
    have hhi : d (t * 2 + 1) = payload.getD (2 * t + 1) 0 := by
      rw [hd (t * 2 + 1) (by omega)]
      have : t * 2 + 1 = 2 * t + 1 := by omega
      rw [this]
    have hlo2 : payload.getD (2 * t) 0 < 256 := getD_lt_256 hvals _
    have hd' : ∀ i, i < 2 * t → bw2rgb_at d (t * 2) (t * 4) i = payload.getD i 0 := by
      intro i hi
      rw [bw2rgb_at_eval hlo hhi hlo2 i, if_neg (by omega), if_neg (by omega),
        if_neg (by omega), if_neg (by omega)]
      exact hd i (by omega)
    rw [ih (bw2rgb_at d (t * 2) (t * 4)) hd' idx]
    by_cases hin : idx < 4 * t
    · have hin2 : idx < 4 * (t + 1) := by omega
      rw [if_pos hin, if_pos hin2]
    · rw [if_neg hin]
      by_cases hmid : idx < 4 * (t + 1)
      · rw [if_pos hmid, bw2rgb_at_eval hlo hhi hlo2 idx]
        have h4 : idx = t * 4 ∨ idx = t * 4 + 1 ∨ idx = t * 4 + 2 ∨ idx = t * 4 + 3 := by omega
        rcases h4 with h4 | h4 | h4 | h4 <;> subst h4
        · rw [if_neg (by omega), if_neg (by omega), if_neg (by omega), if_pos rfl,
            if_neg (by omega)]
          have e1 : t * 4 % 4 = 0 := by omega
          have e2 : t * 4 / 4 = t := by omega
          rw [e2]
        · rw [if_neg (by omega), if_neg (by omega), if_pos rfl, if_neg (by omega)]
          have e2 : (t * 4 + 1) / 4 = t := by omega
          rw [e2]
        · rw [if_neg (by omega), if_pos rfl, if_neg (by omega)]
          have e2 : (t * 4 + 2) / 4 = t := by omega
          rw [e2]
        · rw [if_pos rfl, if_pos (by omega)]
          have e2 : (t * 4 + 3) / 4 = t := by omega
          rw [e2]
      · rw [if_neg hmid, bw2rgb_at_eval hlo hhi hlo2 idx, if_neg (by omega),
          if_neg (by omega), if_neg (by omega), if_neg (by omega)]

/-- `load_tga2` on a well-formed 16-bit black-and-white file: the branch runs the
in-place expansion over the `2*w*h` payload bytes, yields four channels, and no
flip triggers. -/
theorem load_bw16 (w h : Nat) (payload : List Nat)
    (hlen : payload.length = w * h * 2) :
    load_tga2 (bw16_header w h ++ payload) blank =
      (⟨w, h, 4,
        (List.range (w * h)).reverse.foldl (fun d i => bw2rgb_at d (i * 2) (i * 4))
          (bufWrite zeroBuf 0 payload)⟩, true, 18 + payload.length) := by
  have hhdlen : (bw16_header w h).length = 18 := rfl
  have hget : ∀ i, i < 18 → (bw16_header w h ++ payload).getD i 0 = (bw16_header w h).getD i 0 := by
    intro i hi
    exact List.getD_append _ _ _ _ (by omega)
  have h0 : (bw16_header w h ++ payload).getD 0 0 = 0 := by rw [hget 0 (by omega)]; rfl
  have h1 : (bw16_header w h ++ payload).getD 1 0 = 0 := by rw [hget 1 (by omega)]; rfl
  have h2 : (bw16_header w h ++ payload).getD 2 0 = 3 := by rw [hget 2 (by omega)]; rfl
  have h8 : (bw16_header w h ++ payload).getD 8 0 = 0 := by rw [hget 8 (by omega)]; rfl
  have h9 : (bw16_header w h ++ payload).getD 9 0 = 0 := by rw [hget 9 (by omega)]; rfl
  have h10 : (bw16_header w h ++ payload).getD 10 0 = 0 := by rw [hget 10 (by omega)]; rfl
  have h11 : (bw16_header w h ++ payload).getD 11 0 = 0 := by rw [hget 11 (by omega)]; rfl
  have h12 : (bw16_header w h ++ payload).getD 12 0 = w % 256 := by rw [hget 12 (by omega)]; rfl
  have h13 : (bw16_header w h ++ payload).getD 13 0 = w / 256 := by rw [hget 13 (by omega)]; rfl
  have h14 : (bw16_header w h ++ payload).getD 14 0 = h % 256 := by rw [hget 14 (by omega)]; rfl
  have h15 : (bw16_header w h ++ payload).getD 15 0 = h / 256 := by rw [hget 15 (by omega)]; rfl
  have h16 : (bw16_header w h ++ payload).getD 16 0 = 16 := by rw [hget 16 (by omega)]; rfl
  have hwparse : (bw16_header w h ++ payload).getD 13 0 * 256 +
      (bw16_header w h ++ payload).getD 12 0 = w := by rw [h12, h13]; omega
  have hhparse : (bw16_header w h ++ payload).getD 15 0 * 256 +
      (bw16_header w h ++ payload).getD 14 0 = h := by rw [h14, h15]; omega
  have hcm : cmap_info (bw16_header w h ++ payload) = (zeroBuf, 0, 18) := by
    simp only [cmap_info, h0, h1]
    norm_num
  have hchunk : readN (bw16_header w h ++ payload) 18 (w * h * 2) = payload := by
    unfold readN
    have hd18 : (bw16_header w h ++ payload).drop 18 = payload := by
      rw [← hhdlen]
      exact List.drop_left _ _
    rw [hd18, ← hlen, List.take_length]
  have hdec : decode_bw16 (bw16_header w h ++ payload) 18 w h =
      ((List.range (w * h)).reverse.foldl (fun d i => bw2rgb_at d (i * 2) (i * 4))
        (bufWrite zeroBuf 0 payload), 4, 18 + payload.length) := by
    simp only [decode_bw16, hchunk]
  have hbody : load_body (bw16_header w h ++ payload) =
      some (⟨w, h, 4,
        (List.range (w * h)).reverse.foldl (fun d i => bw2rgb_at d (i * 2) (i * 4))
          (bufWrite zeroBuf 0 payload)⟩, 18 + payload.length) := by
    simp only [load_body, hcm, h2, h8, h9, h10, h11, h16, hwparse, hhparse, load_dispatch]
    norm_num [hdec]
  unfold load_tga2
  rw [if_neg (by rw [h2]; omega), hbody]

/-- Claim C2, amended: the only supported black-and-white bit depth is 16.  On a
16-bit black-and-white file the decode succeeds with a four-channel canonical
image in which each pixel's stored luminance (low) byte is replicated into the R,
G and B channels and its high byte becomes the alpha channel. -/
theorem C2_bw_decode (w h : Nat) (payload : List Nat)
    (hlen : payload.length = w * h * 2) (hvals : ∀ b ∈ payload, b < 256) :
    (load_tga2 (bw16_header w h ++ payload) blank).2.1 = true ∧
      (load_tga2 (bw16_header w h ++ payload) blank).1.width = w ∧
      (load_tga2 (bw16_header w h ++ payload) blank).1.height = h ∧
      (load_tga2 (bw16_header w h ++ payload) blank).1.channels = 4 ∧
      ∀ p, p < w * h →
        (load_tga2 (bw16_header w h ++ payload) blank).1.data (p * 4 + 0) =
            payload.getD (2 * p) 0 ∧
          (load_tga2 (bw16_header w h ++ payload) blank).1.data (p * 4 + 1) =
            payload.getD (2 * p) 0 ∧
          (load_tga2 (bw16_header w h ++ payload) blank).1.data (p * 4 + 2) =
            payload.getD (2 * p) 0 ∧
          (load_tga2 (bw16_header w h ++ payload) blank).1.data (p * 4 + 3) =
            payload.getD (2 * p + 1) 0 := by
  rw [load_bw16 w h payload hlen]
  dsimp only
  refine ⟨rfl, rfl, rfl, rfl, ?_⟩
  intro p hp
  have hd0 : ∀ i, i < 2 * (w * h) →
      bufWrite zeroBuf 0 payload i = payload.getD i 0 := by
    intro i hi
    rw [bufWrite_eval]
    rw [if_pos (by omega)]
    rw [Nat.sub_zero]
  have hfold := bw16_fold payload hvals (w * h) (bufWrite zeroBuf 0 payload) hd0
  refine ⟨?_, ?_, ?_, ?_⟩
  · rw [hfold (p * 4 + 0), if_pos (by omega), if_neg (by omega)]
    have e : (p * 4 + 0) / 4 = p := by omega
    rw [e]
  · rw [hfold (p * 4 + 1), if_pos (by omega), if_neg (by omega)]
    have e : (p * 4 + 1) / 4 = p := by omega
    rw [e]
  · rw [hfold (p * 4 + 2), if_pos (by omega), if_neg (by omega)]
    have e : (p * 4 + 2) / 4 = p := by omega
    rw [e]
  · rw [hfold (p * 4 + 3), if_pos (by omega), if_pos (by omega)]
    have e : (p * 4 + 3) / 4 = p := by omega
    rw [e]

/-!  ## The palette builder -/

theorem pal_pred_bgra (d : Buf) {ch : Nat} (hch : ch = 3 ∨ ch = 4) (p q : Nat) :
    (d (p * ch + 2) = (bgra d ch q).getD 0 0 ∧ d (p * ch + 1) = (bgra d ch q).getD 1 0 ∧
        d (p * ch + 0) = (bgra d ch q).getD 2 0 ∧
        (ch = 4 → d (p * ch + 3) = (bgra d ch q).getD 3 0)) ↔
      bgra d ch p = bgra d ch q := by
  rcases hch with h | h <;> subst h <;> simp [bgra]

theorem bgra_eq_iff_tup (d : Buf) {ch : Nat} (hch : ch = 3 ∨ ch = 4) (p q : Nat) :
    bgra d ch p = bgra d ch q ↔
      ((List.range ch).map fun k => d (p * ch + k)) =
        ((List.range ch).map fun k => d (q * ch + k)) := by
  rcases hch with h | h <;> subst h <;>
    simp [bgra, show List.range 3 = [0, 1, 2] from rfl, show List.range 4 = [0, 1, 2, 3] from rfl] <;>
    tauto

/-- The palette scan of `write_tga` accepts exactly one entry per distinct channel
tuple: after the whole scan, `colors` equals the number of distinct tuples; every
scanned pixel's file-order entry is in the palette and every palette entry comes
from a scanned pixel. -/
theorem build_palette_spec (d : Buf) {ch : Nat} (hch : ch = 3 ∨ ch = 4) (n : Nat) :
    (build_palette d ch n).1.length =
        ((List.range n).map fun p => (List.range ch).map fun k => d (p * ch + k)).toFinset.card ∧
      (∀ p, p < n → bgra d ch p ∈ (build_palette d ch n).1) ∧
      (∀ e ∈ (build_palette d ch n).1, ∃ p, p < n ∧ e = bgra d ch p) := by
  induction n with
  | zero =>
    refine ⟨by simp [build_palette], fun p hp => absurd hp (by omega), fun e he => ?_⟩
    simp [build_palette] at he
  | succ n ih =>
    obtain ⟨ihcard, ihmem, ihex⟩ := ih
    have hstep : build_palette d ch (n + 1) = pal_step d ch (build_palette d ch n) n := by
      unfold build_palette
      rw [List.range_succ, List.foldl_append]
      rfl
    have hsplit : ((List.range (n + 1)).map fun p =>
        (List.range ch).map fun k => d (p * ch + k)).toFinset =
        ((List.range n).map fun p => (List.range ch).map fun k => d (p * ch + k)).toFinset ∪
          {(List.range ch).map fun k => d (n * ch + k)} := by
      rw [List.range_succ, List.map_append, List.toFinset_append]
      rfl
    rcases hfind : (build_palette d ch n).1.findIdx? (fun ent =>
        decide (d (n * ch + 2) = ent.getD 0 0 ∧ d (n * ch + 1) = ent.getD 1 0 ∧
          d (n * ch + 0) = ent.getD 2 0 ∧ (ch = 4 → d (n * ch + 3) = ent.getD 3 0))) with
      _ | c
    · -- no entry matches: the tuple is new, one entry is appended
      have hnomatch : ∀ ent ∈ (build_palette d ch n).1,
          ¬(d (n * ch + 2) = ent.getD 0 0 ∧ d (n * ch + 1) = ent.getD 1 0 ∧
            d (n * ch + 0) = ent.getD 2 0 ∧ (ch = 4 → d (n * ch + 3) = ent.getD 3 0)) := by
        rw [List.findIdx?_eq_none_iff] at hfind
        intro ent hent hcon
        have hf := hfind ent hent
        rw [decide_eq_false_iff_not] at hf
        exact hf hcon
      have hpal : (build_palette d ch (n + 1)).1 =
          (build_palette d ch n).1 ++ [bgra d ch n] := by
        rw [hstep]
        simp only [pal_step]
        rw [hfind]
        rfl
      have hnew : ((List.range ch).map fun k => d (n * ch + k)) ∉
          ((List.range n).map fun p => (List.range ch).map fun k => d (p * ch + k)).toFinset := by
        intro hmem
        rw [List.mem_toFinset, List.mem_map] at hmem
        obtain ⟨q, hq, hq2⟩ := hmem
        have hq' : q < n := List.mem_range.mp hq
        have hb : bgra d ch n = bgra d ch q := (bgra_eq_iff_tup d hch n q).mpr hq2.symm
        exact hnomatch (bgra d ch q) (ihmem q hq') ((pal_pred_bgra d hch n q).mpr hb)
      refine ⟨?_, ?_, ?_⟩
      · rw [hpal, hsplit, List.length_append, ihcard, Finset.union_comm, ← Finset.insert_eq,
          Finset.card_insert_of_not_mem hnew]
        rfl
      · intro p hp
        rcases Nat.lt_or_ge p n with hlt | hge
        · rw [hpal]
          exact List.mem_append_left _ (ihmem p hlt)
        · have : p = n := by omega
          subst this
          rw [hpal]
          exact List.mem_append_right _ (List.mem_singleton_self _)
      · intro e he
        rw [hpal, List.mem_append] at he
        rcases he with he | he
        · obtain ⟨p, hp, hpe⟩ := ihex e he
          exact ⟨p, by omega, hpe⟩
        · rw [List.mem_singleton] at he
          exact ⟨n, by omega, he⟩
    · -- some entry matches: the palette is unchanged and so is the tuple set
      have hpal : (build_palette d ch (n + 1)).1 = (build_palette d ch n).1 := by
        rw [hstep]
        simp only [pal_step]
        rw [hfind]
      obtain ⟨hclen, hcp, -⟩ := List.findIdx?_eq_some_iff_getElem.mp hfind
      rw [decide_eq_true_iff] at hcp
      obtain ⟨q, hq, hqe⟩ := ihex _ (List.getElem_mem hclen)
      rw [hqe] at hcp
      have hb : bgra d ch n = bgra d ch q := (pal_pred_bgra d hch n q).mp hcp
      have hold : ((List.range ch).map fun k => d (n * ch + k)) ∈
          ((List.range n).map fun p => (List.range ch).map fun k => d (p * ch + k)).toFinset := by
        rw [List.mem_toFinset, List.mem_map]
        exact ⟨q, List.mem_range.mpr hq, ((bgra_eq_iff_tup d hch n q).mp hb).symm⟩
      refine ⟨?_, ?_, ?_⟩
      · rw [hpal, hsplit, ihcard, Finset.union_comm, ← Finset.insert_eq,
          Finset.insert_eq_self.mpr hold]
      · intro p hp
        rcases Nat.lt_or_ge p n with hlt | hge
        · rw [hpal]
          exact ihmem p hlt
        · have : p = n := by omega
          subst this
          rw [hpal, hb]
          exact ihmem q hq
      · intro e he
        rw [hpal] at he
        obtain ⟨p, hp, hpe⟩ := ihex e he
        exact ⟨p, by omega, hpe⟩

/-- The 257 pixel colours of `c6_img` are pairwise distinct. -/
theorem c6_img_distinct : 256 < distinctColors c6_img := by
  have htup : pixelTuples c6_img.data 3 257 =
      (List.range 257).map fun p => [p % 256, p / 256, 0] := by
    unfold pixelTuples
    refine List.map_congr_left ?_
    intro p hp
    have hlist : (List.range 3).map (fun k => c6_img.data (p * 3 + k)) =
        [c6_img.data (p * 3 + 0), c6_img.data (p * 3 + 1), c6_img.data (p * 3 + 2)] := rfl
    rw [hlist]
    have e0 : c6_img.data (p * 3 + 0) = p % 256 := by
      show (if (p * 3 + 0) % 3 = 0 then (p * 3 + 0) / 3 % 256
        else if (p * 3 + 0) % 3 = 1 then (p * 3 + 0) / 3 / 256 else 0) = p % 256
      rw [if_pos (by omega)]
      have e : (p * 3 + 0) / 3 = p := by omega
      rw [e]
    have e1 : c6_img.data (p * 3 + 1) = p / 256 := by
      show (if (p * 3 + 1) % 3 = 0 then (p * 3 + 1) / 3 % 256
        else if (p * 3 + 1) % 3 = 1 then (p * 3 + 1) / 3 / 256 else 0) = p / 256
      rw [if_neg (by omega), if_pos (by omega)]
      have e : (p * 3 + 1) / 3 = p := by omega
      rw [e]
    have e2 : c6_img.data (p * 3 + 2) = 0 := by
      show (if (p * 3 + 2) % 3 = 0 then (p * 3 + 2) / 3 % 256
        else if (p * 3 + 2) % 3 = 1 then (p * 3 + 2) / 3 / 256 else 0) = 0
      rw [if_neg (by omega), if_neg (by omega)]
    rw [e0, e1, e2]
  have hnodup : ((List.range 257).map fun p => [p % 256, p / 256, 0]).Nodup := by
    refine (List.nodup_range 257).map_on ?_
    intro p hp q hq heq
    simp only [List.cons.injEq, and_true] at heq
    have hp' := List.mem_range.mp hp
    have hq' := List.mem_range.mp hq
    omega
  have h1 : distinctColors c6_img = (pixelTuples c6_img.data 3 257).dedup.length := rfl
  rw [h1, htup, List.dedup_eq_self.mpr hnodup, List.length_map, List.length_range]
  omega

/-- Claim C6: indexed (colour-mapped) encoding, RLE or not, fails with no byte
written when the image has more than 256 distinct channel tuples, and the palette
step does not fail when it has at most 256. -/
theorem C6_palette_overflow (ptga : tga_image)
    (hch : ptga.channels = 3 ∨ ptga.channels = 4) :
    (256 < distinctColors ptga →
        write_tga ptga TGA_MAPPED = (false, []) ∧
          write_tga ptga TGA_MAPPED_RLE = (false, [])) ∧
      (distinctColors ptga ≤ 256 →
        (write_tga ptga TGA_MAPPED).1 = true ∧ (write_tga ptga TGA_MAPPED_RLE).1 = true) := by
  have hconn : (build_palette ptga.data ptga.channels (ptga.width * ptga.height)).1.length =
      distinctColors ptga := by
    rw [(build_palette_spec ptga.data hch (ptga.width * ptga.height)).1]
    unfold distinctColors pixelTuples
    rw [List.card_toFinset]
  constructor
  · intro hc
    constructor
    · simp only [write_tga]
      rw [if_pos]
      refine ⟨Or.inl trivial, ?_⟩
      rw [if_pos (Or.inl trivial), hconn]
      omega
    · simp only [write_tga]
      rw [if_pos]
      refine ⟨Or.inr trivial, ?_⟩
      rw [if_pos (Or.inr trivial), hconn]
      omega
  · intro hc
    constructor
    · simp only [write_tga]
      rw [if_neg]
      intro hcon
      have h2 := hcon.2
      rw [if_pos (Or.inl trivial), hconn] at h2
      omega
    · simp only [write_tga]
      rw [if_neg]
      intro hcon
      have h2 := hcon.2
      rw [if_pos (Or.inr trivial), hconn] at h2
      omega

/-- Witness for C6: the 257-colour image fails indexed encoding with no output,
the small image's palette step succeeds. -/
theorem C6_palette_overflow_witness :
    write_tga c6_img TGA_MAPPED = (false, []) ∧ (write_tga c6_small TGA_MAPPED).1 = true :=
  ⟨((C6_palette_overflow c6_img (Or.inl rfl)).1 c6_img_distinct).1,
    ((C6_palette_overflow c6_small (Or.inl rfl)).2 (by decide)).1⟩

/-!  ## RLE packet bounds -/

/-- Invariant of the shared RLE row scan: with `duplicates` and `different` both
at most 127 (as the `+1 < 128` guards keep them), every emitted packet covers
between 1 and 128 pixels, and the counters stay at most 127. -/
theorem rle_row_bound (w : Nat) (eqp : Nat → Nat → Bool) (runP : Nat → List Nat)
    (rawP : Nat → Nat → List Nat) (rowBase : Nat) :
    ∀ fuel j dup diff out,
      dup ≤ 127 → diff ≤ 127 →
      (∀ pk ∈ out, 1 ≤ Packet.pixelCount pk ∧ Packet.pixelCount pk ≤ 128) →
      (∀ pk ∈ (rle_row w eqp runP rawP rowBase fuel j dup diff out).1,
          1 ≤ Packet.pixelCount pk ∧ Packet.pixelCount pk ≤ 128) ∧
        (rle_row w eqp runP rawP rowBase fuel j dup diff out).2.1 ≤ 127 ∧
        (rle_row w eqp runP rawP rowBase fuel j dup diff out).2.2 ≤ 127 := by
  intro fuel
  induction fuel with
  | zero =>
    intro j dup diff out hdup hdiff hout
    exact ⟨hout, hdup, hdiff⟩
  | succ fuel ih =>
    intro j dup diff out hdup hdiff hout
    have hext : ∀ pk : Packet, (∀ q ∈ out, 1 ≤ Packet.pixelCount q ∧ Packet.pixelCount q ≤ 128) →
        1 ≤ Packet.pixelCount pk → Packet.pixelCount pk ≤ 128 →
        ∀ q ∈ out ++ [pk], 1 ≤ Packet.pixelCount q ∧ Packet.pixelCount q ≤ 128 := by
      intro pk hq h1 h2 q hmem
      rcases List.mem_append.mp hmem with hmem | hmem
      · exact hq q hmem
      · rw [List.mem_singleton] at hmem
        subst hmem
        exact ⟨h1, h2⟩
    simp only [rle_row]
    split
    · split
      · exact ih _ _ _ _ (by omega) hdiff hout
      · split
        · refine ih _ _ _ _ (by omega) hdiff ?_
          refine hext _ hout (by simp [Packet.pixelCount]) ?_
          show dup + 1 ≤ 128
          omega
        · split
          · exact ih _ _ _ _ hdup (by omega) hout
          · split
            · refine ih _ _ _ _ hdup (by omega) ?_
              refine hext _ hout (by simp [Packet.pixelCount]) ?_
              show diff - 1 + 1 ≤ 128
              omega
            · refine ih _ _ _ _ hdup (by omega) ?_
              refine hext _ hout (by simp [Packet.pixelCount]) ?_
              show diff + 1 ≤ 128
              omega
    · exact ⟨hout, hdup, hdiff⟩

/-- The full scan emits only packets covering 1 to 128 pixels. -/
theorem rle_scan_bound (w h : Nat) (eqp : Nat → Nat → Bool) (runP : Nat → List Nat)
    (rawP : Nat → Nat → List Nat) :
    ∀ pk ∈ rle_scan w h eqp runP rawP,
      1 ≤ Packet.pixelCount pk ∧ Packet.pixelCount pk ≤ 128 := by
  have key : ∀ (rows : List Nat) (st : List Packet × Nat × Nat),
      (∀ pk ∈ st.1, 1 ≤ Packet.pixelCount pk ∧ Packet.pixelCount pk ≤ 128) →
      st.2.1 ≤ 127 → st.2.2 ≤ 127 →
      ∀ pk ∈ (rows.foldl
          (fun acc i => rle_row w eqp runP rawP (i * w) (2 * w + 1) 0 acc.2.1 acc.2.2 acc.1)
          st).1,
        1 ≤ Packet.pixelCount pk ∧ Packet.pixelCount pk ≤ 128 := by
    intro rows
    induction rows with
    | nil => intro st h1 _ _; exact h1
    | cons r rows ih =>
      intro st h1 h2 h3
      have hrow := rle_row_bound w eqp runP rawP (r * w) (2 * w + 1) 0 st.2.1 st.2.2 st.1
        (by omega) h3 h1
      exact ih _ hrow.1 hrow.2.1 hrow.2.2
  intro pk hpk
  exact key (List.range h) ([], 0, 0) (by intro pk h; simp at h)
    (by show (0 : Nat) ≤ 127; omega) (by show (0 : Nat) ≤ 127; omega) pk hpk

/-- Claim C7: for every canonical image, every packet any of the four RLE
encoder branches emits covers between 1 and 128 pixels — the run packet's repeat
count and the raw packet's literal count both lie in 1..128. -/
theorem C7_packet_bound (ptga : tga_image) (pk : Packet) :
    (pk ∈ rgb_rle_packets ptga.data ptga.channels ptga.width ptga.height →
        1 ≤ pk.pixelCount ∧ pk.pixelCount ≤ 128) ∧
      (pk ∈ rgb16_rle_packets ptga.data ptga.channels ptga.width ptga.height →
        1 ≤ pk.pixelCount ∧ pk.pixelCount ≤ 128) ∧
      (pk ∈ bw_rle_packets ptga.data ptga.channels ptga.width ptga.height →
        1 ≤ pk.pixelCount ∧ pk.pixelCount ≤ 128) ∧
      (pk ∈ mapped_rle_packets
          (build_palette ptga.data ptga.channels (ptga.width * ptga.height)).2
          ptga.width ptga.height →
        1 ≤ pk.pixelCount ∧ pk.pixelCount ≤ 128) := by
  refine ⟨fun hm => ?_, fun hm => ?_, fun hm => ?_, fun hm => ?_⟩
  · exact rle_scan_bound _ _ _ _ _ pk hm
  · exact rle_scan_bound _ _ _ _ _ pk hm
  · exact rle_scan_bound _ _ _ _ _ pk hm
  · exact rle_scan_bound _ _ _ _ _ pk hm

/-- Witness for C7 at the 2×1 run-packet image. -/
theorem C7_packet_bound_witness :
    1 ≤ Packet.pixelCount (.run 1 [0, 0, 255]) ∧
      Packet.pixelCount (.run 1 [0, 0, 255]) ≤ 128 :=
  (C7_packet_bound c4_img (.run 1 [0, 0, 255])).1 (by decide)

/-!  ## True-colour round trip: serialization and payload lemmas -/

set_option maxRecDepth 4000 in
theorem or128_eq : ∀ x, x < 128 → x ||| 128 = x + 128 := by decide

set_option maxRecDepth 4000 in
theorem and128_hi : ∀ b, b < 256 → 128 ≤ b → b &&& 128 ≠ 0 := by decide

set_option maxRecDepth 4000 in
theorem and128_lo : ∀ b, b < 128 → b &&& 128 = 0 := by decide

theorem serialize_run (dup : Nat) (payload : List Nat) (h1 : dup ≤ 126) :
    serializePacket (.run dup payload) = (128 + dup) :: payload := by
  show ((((dup + 1) % 256) ||| 128) - 1) % 256 :: payload = _
  have h2 : (dup + 1) % 256 = dup + 1 := by omega
  rw [h2, or128_eq (dup + 1) (by omega)]
  have h3 : (dup + 1 + 128 - 1) % 256 = 128 + dup := by omega
  rw [h3]

theorem serialize_raw (diff : Nat) (payload : List Nat) (h1 : diff ≤ 127) :
    serializePacket (.raw diff payload) = diff :: payload := by
  show (((diff + 1) % 256 + 255) % 256) :: payload = _
  have h2 : ((diff + 1) % 256 + 255) % 256 = diff := by omega
  rw [h2]

theorem bgra_length (d : Buf) {ch : Nat} (hch : ch = 3 ∨ ch = 4) (p : Nat) :
    (bgra d ch p).length = ch := by
  rcases hch with h | h <;> subst h <;> simp [bgra]

theorem pix_dup_iff (d : Buf) {ch : Nat} (hch : ch = 3 ∨ ch = 4) (p q : Nat) :
    pix_dup d ch p q = true ↔ bgra d ch p = bgra d ch q := by
  rcases hch with h | h <;> subst h <;> simp [pix_dup, bgra] <;> tauto

theorem flatMap_range_length (f : Nat → List Nat) (c : Nat) (hf : ∀ t, (f t).length = c) :
    ∀ n, ((List.range n).flatMap f).length = n * c := by
  intro n
  induction n with
  | zero => simp
  | succ m ih =>
    rw [List.range_succ, List.flatMap_append, List.length_append, ih]
    simp only [List.flatMap_cons, List.flatMap_nil, List.append_nil, hf m]
    ring

theorem flatMap_range_getD (f : Nat → List Nat) (c : Nat) (hf : ∀ t, (f t).length = c) :
    ∀ n p k, p < n → k < c →
      ((List.range n).flatMap f).getD (p * c + k) 0 = (f p).getD k 0 := by
  intro n
  induction n with
  | zero => intro p k hp; omega
  | succ m ih =>
    intro p k hp hk
    rw [List.range_succ, List.flatMap_append]
    simp only [List.flatMap_cons, List.flatMap_nil, List.append_nil]
    rcases Nat.lt_or_ge p m with hlt | hge
    · rw [List.getD_append]
      · exact ih p k hlt hk
      · rw [flatMap_range_length f c hf m]
        calc p * c + k < p * c + c := by omega
        _ = (p + 1) * c := by ring
        _ ≤ m * c := Nat.mul_le_mul_right c (by omega)
    · have hpm : p = m := by omega
      subst hpm
      rw [List.getD_append_right]
      · rw [flatMap_range_length f c hf p]
        have e : p * c + k - p * c = k := by omega
        rw [e]
      · rw [flatMap_range_length f c hf p]
        omega

theorem chain_eq_last {α : Type} (f : Nat → α) (s : Nat) :
    ∀ n, (∀ t, t < n → f (s + t) = f (s + t + 1)) → ∀ t, t ≤ n → f (s + t) = f (s + n) := by
  intro n
  induction n with
  | zero =>
    intro _ t ht
    rw [Nat.le_zero.mp ht]
  | succ n ih =>
    intro hc t ht
    rcases Nat.lt_or_ge t (n + 1) with h | h
    · have h1 := ih (fun t' ht' => hc t' (by omega)) t (by omega)
      have h2 := hc n (by omega)
      exact h1.trans h2
    · have he : t = n + 1 := by omega
      rw [he]

theorem pix_idx_ne {ch q k1 q' k2 A B : Nat} (hk1 : k1 < ch) (hk2 : k2 < ch)
    (hcon : ¬(q = q' ∧ k1 = k2)) (hA : A = q * ch + k1) (hB : B = q' * ch + k2) : A ≠ B := by
  intro heq
  subst hA hB
  obtain ⟨ha, hb⟩ := decomp_inj hk1 hk2 heq
  exact hcon ⟨ha, hb⟩

theorem rgb_idx_ne {w ch y1 x1 k1 y2 x2 k2 A B : Nat} (hx1 : x1 < w) (hk1 : k1 < ch)
    (hx2 : x2 < w) (hk2 : k2 < ch) (hcon : ¬(y1 = y2 ∧ x1 = x2 ∧ k1 = k2))
    (hA : A = w * ch * y1 + x1 * ch + k1) (hB : B = w * ch * y2 + x2 * ch + k2) : A ≠ B := by
  intro heq
  subst hA hB
  have h2 : (y1 * w + x1) * ch + k1 = (y2 * w + x2) * ch + k2 := by
    have e1 : (y1 * w + x1) * ch + k1 = w * ch * y1 + x1 * ch + k1 := by ring
    have e2 : (y2 * w + x2) * ch + k2 = w * ch * y2 + x2 * ch + k2 := by ring
    rw [e1, e2, heq]
  obtain ⟨ha, hb⟩ := decomp_inj hk1 hk2 h2
  obtain ⟨hc', hd'⟩ := decomp_inj hx1 hx2 ha
  exact hcon ⟨hc', hd', hb⟩

/-- Channel permutation performed by a B↔R swap at one pixel. -/
def swap02 (k : Nat) : Nat := if k = 0 then 2 else if k = 2 then 0 else k

/-- Pointwise effect of the whole decoder B↔R swap loop (`rgbSwapPairs`): channel
0 and channel 2 of every pixel exchange places. -/
theorem permOf_rgbSwapPairs (w h ch : Nat) (hch3 : 3 ≤ ch) (y x k : Nat)
    (hy : y < h) (hx : x < w) (hk : k < ch) :
    permOf (rgbSwapPairs w h ch) (w * ch * y + x * ch + k) =
      w * ch * y + x * ch + swap02 k := by
  have key : ∀ (y1 x1 k1 y2 x2 k2 A B : Nat), x1 < w → k1 < ch → x2 < w → k2 < ch →
      ¬(y1 = y2 ∧ x1 = x2 ∧ k1 = k2) → A = w * ch * y1 + x1 * ch + k1 →
      B = w * ch * y2 + x2 * ch + k2 → A ≠ B :=
    fun y1 x1 k1 y2 x2 k2 A B hx1 hk1 hx2 hk2 hcon hA hB =>
      rgb_idx_ne hx1 hk1 hx2 hk2 hcon hA hB
  have hsw : swap02 k < ch := by
    unfold swap02
    split
    · omega
    · split <;> omega
  have hswe : ∀ y1, w * ch * y1 + x * ch + swap02 k = w * ch * y1 + x * ch + swap02 k := fun _ => rfl
  have hrow : ∀ y', permOf ((List.range w).map fun x' =>
      (w * ch * y' + x' * ch, w * ch * y' + x' * ch + 2)) (w * ch * y + x * ch + k) =
      if y = y' then w * ch * y + x * ch + swap02 k else w * ch * y + x * ch + k := by
    intro y'
    by_cases hy' : y = y'
    · subst hy'
      rw [if_pos rfl]
      by_cases hk0 : k = 0
      · subst hk0
        have heval := permOf_range_map
          (fun x' => (w * ch * y + x' * ch, w * ch * y + x' * ch + 2)) w x
          (w * ch * y + x * ch + 0) hx ?_
        · rw [heval]
          show swapIdx (w * ch * y + x * ch) (w * ch * y + x * ch + 2)
              (w * ch * y + x * ch + 0) = _
          rw [show w * ch * y + x * ch + 0 = w * ch * y + x * ch from rfl, swapIdx_fst]
          rfl
        · intro t ht htx
          have hcon1 : ¬(y = y ∧ x = t ∧ (0 : Nat) = 0) := fun hc => htx hc.2.1.symm
          have hcon2 : ¬(y = y ∧ x = t ∧ (0 : Nat) = 2) := fun hc => htx hc.2.1.symm
          have hcon3 : ¬(y = y ∧ x = t ∧ (2 : Nat) = 0) := fun hc => htx hc.2.1.symm
          have hcon4 : ¬(y = y ∧ x = t ∧ (2 : Nat) = 2) := fun hc => htx hc.2.1.symm
          refine ⟨⟨?_, ?_⟩, ?_, ?_⟩
          · exact key y x 0 y t 0 _ _ hx (by omega) ht (by omega) hcon1 (by ring) (by ring)
          · exact key y x 0 y t 2 _ _ hx (by omega) ht (by omega) hcon2 (by ring) (by ring)
          · show swapIdx (w * ch * y + x * ch) (w * ch * y + x * ch + 2)
                (w * ch * y + x * ch + 0) ≠ _
            rw [show w * ch * y + x * ch + 0 = w * ch * y + x * ch from rfl, swapIdx_fst]
            exact key y x 2 y t 0 _ _ hx (by omega) ht (by omega) hcon3 (by ring) (by ring)
          · show swapIdx (w * ch * y + x * ch) (w * ch * y + x * ch + 2)
                (w * ch * y + x * ch + 0) ≠ _
            rw [show w * ch * y + x * ch + 0 = w * ch * y + x * ch from rfl, swapIdx_fst]
            exact key y x 2 y t 2 _ _ hx (by omega) ht (by omega) hcon4 (by ring) (by ring)
      · by_cases hk2 : k = 2
        · subst hk2
          have heval := permOf_range_map
            (fun x' => (w * ch * y + x' * ch, w * ch * y + x' * ch + 2)) w x
            (w * ch * y + x * ch + 2) hx ?_
          · rw [heval]
            show swapIdx (w * ch * y + x * ch) (w * ch * y + x * ch + 2)
                (w * ch * y + x * ch + 2) = _
            rw [swapIdx_snd]
            show _ = w * ch * y + x * ch + swap02 2
            rfl
          · intro t ht htx
            have hcon1 : ¬(y = y ∧ x = t ∧ (2 : Nat) = 0) := fun hc => htx hc.2.1.symm
            have hcon2 : ¬(y = y ∧ x = t ∧ (2 : Nat) = 2) := fun hc => htx hc.2.1.symm
            have hcon3 : ¬(y = y ∧ x = t ∧ (0 : Nat) = 0) := fun hc => htx hc.2.1.symm
            have hcon4 : ¬(y = y ∧ x = t ∧ (0 : Nat) = 2) := fun hc => htx hc.2.1.symm
            refine ⟨⟨?_, ?_⟩, ?_, ?_⟩
            · exact key y x 2 y t 0 _ _ hx (by omega) ht (by omega) hcon1 (by ring) (by ring)
            · exact key y x 2 y t 2 _ _ hx (by omega) ht (by omega) hcon2 (by ring) (by ring)
            · show swapIdx (w * ch * y + x * ch) (w * ch * y + x * ch + 2)
                  (w * ch * y + x * ch + 2) ≠ _
              rw [swapIdx_snd]
              exact key y x 0 y t 0 _ _ hx (by omega) ht (by omega) hcon3 (by ring) (by ring)
            · show swapIdx (w * ch * y + x * ch) (w * ch * y + x * ch + 2)
                  (w * ch * y + x * ch + 2) ≠ _
              rw [swapIdx_snd]
              exact key y x 0 y t 2 _ _ hx (by omega) ht (by omega) hcon4 (by ring) (by ring)
        · have hfix : permOf ((List.range w).map fun x' =>
              (w * ch * y + x' * ch, w * ch * y + x' * ch + 2))
              (w * ch * y + x * ch + k) = w * ch * y + x * ch + k := by
            refine permOf_untouched (untouched_map fun t ht => ?_)
            refine ⟨?_, ?_⟩
            · exact key y x k y t 0 _ _ hx hk ht (by omega)
                (fun hc => hk0 hc.2.2) (by ring) (by ring)
            · exact key y x k y t 2 _ _ hx hk ht (by omega)
                (fun hc => hk2 hc.2.2) (by ring) (by ring)
          rw [hfix]
          show _ = w * ch * y + x * ch + swap02 k
          unfold swap02
          rw [if_neg hk0, if_neg hk2]
    · rw [if_neg hy']
      refine permOf_untouched (untouched_map fun t ht => ?_)
      refine ⟨?_, ?_⟩
      · exact key y x k y' t 0 _ _ hx hk ht (by omega)
          (fun hc => hy' hc.1) (by ring) (by ring)
      · exact key y x k y' t 2 _ _ hx hk ht (by omega)
          (fun hc => hy' hc.1) (by ring) (by ring)
  have hmain := permOf_range_flatMap
    (fun y' => (List.range w).map fun x' =>
      (w * ch * y' + x' * ch, w * ch * y' + x' * ch + 2)) h y
    (w * ch * y + x * ch + k) hy ?_
  · rw [rgbSwapPairs, hmain, hrow y, if_pos rfl]
  · intro t ht hty
    constructor
    · refine untouched_map fun u hu => ⟨?_, ?_⟩
      · exact key y x k t u 0 _ _ hx hk hu (by omega)
          (fun hc => hty hc.1.symm) (by ring) (by ring)
      · exact key y x k t u 2 _ _ hx hk hu (by omega)
          (fun hc => hty hc.1.symm) (by ring) (by ring)
    · rw [hrow y, if_pos rfl]
      refine untouched_map fun u hu => ⟨?_, ?_⟩
      · exact key y x (swap02 k) t u 0 _ _ hx hsw hu (by omega)
          (fun hc => hty hc.1.symm) (by ring) (by ring)
      · exact key y x (swap02 k) t u 2 _ _ hx hsw hu (by omega)
          (fun hc => hty hc.1.symm) (by ring) (by ring)

/-- Pointwise effect of the per-packet B↔R swap loop of the RLE decoder's raw
branch over pixels `i, …, i+n-1`. -/
theorem permOf_rawSwap (ch i n t k : Nat) (hch3 : 3 ≤ ch) (ht : t < n) (hk : k < ch) :
    permOf ((List.range n).map fun u => ((i + u) * ch, (i + u) * ch + 2)) ((i + t) * ch + k) =
      (i + t) * ch + swap02 k := by
  have key : ∀ (q1 k1 q2 k2 A B : Nat), k1 < ch → k2 < ch → ¬(q1 = q2 ∧ k1 = k2) →
      A = q1 * ch + k1 → B = q2 * ch + k2 → A ≠ B :=
    fun q1 k1 q2 k2 A B hk1 hk2 hcon hA hB => pix_idx_ne hk1 hk2 hcon hA hB
  have hne : ∀ u, u < n → u ≠ t → (i + t) ≠ (i + u) := by intro u hu hut h; omega
  by_cases hk0 : k = 0
  · subst hk0
    have heval := permOf_range_map (fun u => ((i + u) * ch, (i + u) * ch + 2)) n t
      ((i + t) * ch + 0) ht ?_
    · rw [heval]
      show swapIdx ((i + t) * ch) ((i + t) * ch + 2) ((i + t) * ch + 0) = _
      rw [show (i + t) * ch + 0 = (i + t) * ch from rfl, swapIdx_fst]
      rfl
    · intro u hu hut
      refine ⟨⟨?_, ?_⟩, ?_, ?_⟩
      · exact key (i + t) 0 (i + u) 0 _ _ (by omega) (by omega)
          (fun hc => hne u hu hut hc.1) (by ring) (by ring)
      · exact key (i + t) 0 (i + u) 2 _ _ (by omega) (by omega)
          (fun hc => hne u hu hut hc.1) (by ring) (by ring)
      · show swapIdx ((i + t) * ch) ((i + t) * ch + 2) ((i + t) * ch + 0) ≠ _
        rw [show (i + t) * ch + 0 = (i + t) * ch from rfl, swapIdx_fst]
        exact key (i + t) 2 (i + u) 0 _ _ (by omega) (by omega)
          (fun hc => hne u hu hut hc.1) (by ring) (by ring)
      · show swapIdx ((i + t) * ch) ((i + t) * ch + 2) ((i + t) * ch + 0) ≠ _
        rw [show (i + t) * ch + 0 = (i + t) * ch from rfl, swapIdx_fst]
        exact key (i + t) 2 (i + u) 2 _ _ (by omega) (by omega)
          (fun hc => hne u hu hut hc.1) (by ring) (by ring)
  · by_cases hk2 : k = 2
    · subst hk2
      have heval := permOf_range_map (fun u => ((i + u) * ch, (i + u) * ch + 2)) n t
        ((i + t) * ch + 2) ht ?_
      · rw [heval]
        show swapIdx ((i + t) * ch) ((i + t) * ch + 2) ((i + t) * ch + 2) = _
        rw [swapIdx_snd]
        show _ = (i + t) * ch + swap02 2
        rfl
      · intro u hu hut
        refine ⟨⟨?_, ?_⟩, ?_, ?_⟩
        · exact key (i + t) 2 (i + u) 0 _ _ (by omega) (by omega)
            (fun hc => hne u hu hut hc.1) (by ring) (by ring)
        · exact key (i + t) 2 (i + u) 2 _ _ (by omega) (by omega)
            (fun hc => hne u hu hut hc.1) (by ring) (by ring)
        · show swapIdx ((i + t) * ch) ((i + t) * ch + 2) ((i + t) * ch + 2) ≠ _
          rw [swapIdx_snd]
          exact key (i + t) 0 (i + u) 0 _ _ (by omega) (by omega)
            (fun hc => hne u hu hut hc.1) (by ring) (by ring)
        · show swapIdx ((i + t) * ch) ((i + t) * ch + 2) ((i + t) * ch + 2) ≠ _
          rw [swapIdx_snd]
          exact key (i + t) 0 (i + u) 2 _ _ (by omega) (by omega)
            (fun hc => hne u hu hut hc.1) (by ring) (by ring)
    · have hfix : permOf ((List.range n).map fun u => ((i + u) * ch, (i + u) * ch + 2))
          ((i + t) * ch + k) = (i + t) * ch + k := by
        refine permOf_untouched (untouched_map fun u hu => ⟨?_, ?_⟩)
        · exact key (i + t) k (i + u) 0 _ _ hk (by omega)
            (fun hc => hk0 hc.2) (by ring) (by ring)
        · exact key (i + t) k (i + u) 2 _ _ hk (by omega)
            (fun hc => hk2 hc.2) (by ring) (by ring)
      rw [hfix]
      show _ = (i + t) * ch + swap02 k
      unfold swap02
      rw [if_neg hk0, if_neg hk2]

/-- The raw-branch swap loop touches only offsets of pixels `i, …, i+n-1`. -/
theorem rawSwap_untouched (ch i n idx : Nat) (hch3 : 3 ≤ ch)
    (hout : idx < i * ch ∨ (i + n) * ch ≤ idx) :
    permOf ((List.range n).map fun u => ((i + u) * ch, (i + u) * ch + 2)) idx = idx := by
  refine permOf_untouched (untouched_map fun u hu => ?_)
  have hb1 : i * ch ≤ (i + u) * ch := Nat.mul_le_mul_right ch (by omega)
  have hb2 : (i + u) * ch + 2 < (i + n) * ch := by
    calc (i + u) * ch + 2 < (i + u) * ch + ch := by omega
    _ = (i + u + 1) * ch := by ring
    _ ≤ (i + n) * ch := Nat.mul_le_mul_right ch (by omega)
  constructor <;> omega

/-- `write_tga` with the 24/32-bit true-colour subtype: header then the pixels in
file order. -/
theorem write_tga_rgb (ptga : tga_image) :
    write_tga ptga TGA_RGB = (true,
      write_header ptga.width ptga.height 0 0 0 0 2 (ptga.channels * 8 % 256) ++
        ((List.range (ptga.width * ptga.height)).flatMap fun p =>
          bgra ptga.data ptga.channels p)) := rfl

/-- `write_tga` with the RLE 24/32-bit true-colour subtype: header then the
serialised packet stream. -/
theorem write_tga_rgb_rle (ptga : tga_image) :
    write_tga ptga TGA_RGB_RLE = (true,
      write_header ptga.width ptga.height 0 0 0 0 10 (ptga.channels * 8 % 256) ++
        serializePackets
          (rgb_rle_packets ptga.data ptga.channels ptga.width ptga.height)) := rfl

/-- Shared header-parsing facts for a true-colour file written by `write_tga`:
the byte at offset `i` (< 18) of header-plus-body. -/
theorem load_truecolor_pre (w h ch ty : Nat) (body : List Nat) (hch : ch = 3 ∨ ch = 4)
    (hw : w < 65536) (hh : h < 65536) :
    (write_header w h 0 0 0 0 ty (ch * 8 % 256) ++ body).getD 0 0 = 0 ∧
      (write_header w h 0 0 0 0 ty (ch * 8 % 256) ++ body).getD 1 0 = 0 ∧
      (write_header w h 0 0 0 0 ty (ch * 8 % 256) ++ body).getD 2 0 = ty ∧
      (write_header w h 0 0 0 0 ty (ch * 8 % 256) ++ body).getD 8 0 = 0 ∧
      (write_header w h 0 0 0 0 ty (ch * 8 % 256) ++ body).getD 9 0 = 0 ∧
      (write_header w h 0 0 0 0 ty (ch * 8 % 256) ++ body).getD 10 0 = 0 ∧
      (write_header w h 0 0 0 0 ty (ch * 8 % 256) ++ body).getD 11 0 = 0 ∧
      (write_header w h 0 0 0 0 ty (ch * 8 % 256) ++ body).getD 13 0 * 256 +
        (write_header w h 0 0 0 0 ty (ch * 8 % 256) ++ body).getD 12 0 = w ∧
      (write_header w h 0 0 0 0 ty (ch * 8 % 256) ++ body).getD 15 0 * 256 +
        (write_header w h 0 0 0 0 ty (ch * 8 % 256) ++ body).getD 14 0 = h ∧
      (write_header w h 0 0 0 0 ty (ch * 8 % 256) ++ body).getD 16 0 = ch * 8 := by
  have hlen : (write_header w h 0 0 0 0 ty (ch * 8 % 256)).length = 18 := rfl
  have hget : ∀ i, i < 18 → (write_header w h 0 0 0 0 ty (ch * 8 % 256) ++ body).getD i 0 =
      (write_header w h 0 0 0 0 ty (ch * 8 % 256)).getD i 0 := by
    intro i hi
    exact List.getD_append _ _ _ _ (by omega)
  refine ⟨by rw [hget 0 (by omega)]; rfl, by rw [hget 1 (by omega)]; rfl,
    by rw [hget 2 (by omega)]; rfl, by rw [hget 8 (by omega)]; rfl,
    by rw [hget 9 (by omega)]; rfl, by rw [hget 10 (by omega)]; rfl,
    by rw [hget 11 (by omega)]; rfl, ?_, ?_, ?_⟩
  · rw [hget 12 (by omega), hget 13 (by omega)]
    show (w / 256 % 256) * 256 + w % 256 = w
    omega
  · rw [hget 14 (by omega), hget 15 (by omega)]
    show (h / 256 % 256) * 256 + h % 256 = h
    omega
  · rw [hget 16 (by omega)]
    show ch * 8 % 256 = ch * 8
    omega

/-- `cmap_info` on a true-colour file written by `write_tga`: no colour map, the
position stays at 18. -/
theorem cmap_info_truecolor (w h ch ty : Nat) (body : List Nat) (hch : ch = 3 ∨ ch = 4)
    (hw : w < 65536) (hh : h < 65536) :
    cmap_info (write_header w h 0 0 0 0 ty (ch * 8 % 256) ++ body) = (zeroBuf, 0, 18) := by
  obtain ⟨h0, h1, -⟩ := load_truecolor_pre w h ch ty body hch hw hh
  simp only [cmap_info, h0, h1]
  norm_num

/-- `load_tga2` on the output of the non-RLE true-colour encoder: the branch reads
the whole pixel block and swaps B and R per pixel. -/
theorem load_rgb (w h ch : Nat) (body : List Nat) (hch : ch = 3 ∨ ch = 4)
    (hw : w < 65536) (hh : h < 65536) (hblen : body.length = w * h * ch) :
    load_tga2 (write_header w h 0 0 0 0 2 (ch * 8 % 256) ++ body) blank =
      (⟨w, h, ch, swapsOf (rgbSwapPairs w h ch) (bufWrite zeroBuf 0 body)⟩, true,
        18 + body.length) := by
  obtain ⟨h0, h1, h2, h8, h9, h10, h11, hwp, hhp, h16⟩ :=
    load_truecolor_pre w h ch 2 body hch hw hh
  have hcm := cmap_info_truecolor w h ch 2 body hch hw hh
  have hchunk : readN (write_header w h 0 0 0 0 2 (ch * 8 % 256) ++ body) 18 (w * h * ch) =
      body := by
    unfold readN
    have hd18 : (write_header w h 0 0 0 0 2 (ch * 8 % 256) ++ body).drop 18 = body := by
      have hl : (write_header w h 0 0 0 0 2 (ch * 8 % 256)).length = 18 := rfl
      rw [← hl]
      exact List.drop_left _ _
    rw [hd18, ← hblen, List.take_length]
  have hdisp : load_dispatch (write_header w h 0 0 0 0 2 (ch * 8 % 256) ++ body) 2 (ch * 8)
      18 w h zeroBuf 0 =
      some (swapsOf (rgbSwapPairs w h ch) (bufWrite zeroBuf 0 body), ch, 18 + body.length) := by
    rcases hch with hch | hch <;> subst hch <;>
      simp only [load_dispatch] <;> norm_num <;>
      simp only [decode_rgb24, hchunk]
  have hbody : load_body (write_header w h 0 0 0 0 2 (ch * 8 % 256) ++ body) =
      some (⟨w, h, ch, swapsOf (rgbSwapPairs w h ch) (bufWrite zeroBuf 0 body)⟩,
        18 + body.length) := by
    simp only [load_body, hcm, h2, h8, h9, h10, h11, h16, hwp, hhp, hdisp]
    norm_num
  unfold load_tga2
  rw [if_neg (by rw [h2]; omega), hbody]

/-- `load_tga2` on the output of the RLE true-colour encoder: the branch runs the
packet loop with fuel `w*h` from position 18 over a zeroed buffer. -/
theorem load_rgb_rle (w h ch : Nat) (body : List Nat) (hch : ch = 3 ∨ ch = 4)
    (hw : w < 65536) (hh : h < 65536) :
    load_tga2 (write_header w h 0 0 0 0 10 (ch * 8 % 256) ++ body) blank =
      (⟨w, h, ch,
        (rgb_rle_load (write_header w h 0 0 0 0 10 (ch * 8 % 256) ++ body) w h ch
          (w * h) 0 18 0 zeroBuf).1⟩, true,
        (rgb_rle_load (write_header w h 0 0 0 0 10 (ch * 8 % 256) ++ body) w h ch
          (w * h) 0 18 0 zeroBuf).2) := by
  obtain ⟨h0, h1, h2, h8, h9, h10, h11, hwp, hhp, h16⟩ :=
    load_truecolor_pre w h ch 10 body hch hw hh
  have hcm := cmap_info_truecolor w h ch 10 body hch hw hh
  have hdisp : load_dispatch (write_header w h 0 0 0 0 10 (ch * 8 % 256) ++ body) 10 (ch * 8)
      18 w h zeroBuf 0 =
      some ((rgb_rle_load (write_header w h 0 0 0 0 10 (ch * 8 % 256) ++ body) w h ch
          (w * h) 0 18 0 zeroBuf).1, ch,
        (rgb_rle_load (write_header w h 0 0 0 0 10 (ch * 8 % 256) ++ body) w h ch
          (w * h) 0 18 0 zeroBuf).2) := by
    rcases hch with hch | hch <;> subst hch <;>
      simp only [load_dispatch] <;> norm_num <;>
      simp only [decode_rgb_rle24]
  have hbody : load_body (write_header w h 0 0 0 0 10 (ch * 8 % 256) ++ body) =
      some (⟨w, h, ch,
        (rgb_rle_load (write_header w h 0 0 0 0 10 (ch * 8 % 256) ++ body) w h ch
          (w * h) 0 18 0 zeroBuf).1⟩,
        (rgb_rle_load (write_header w h 0 0 0 0 10 (ch * 8 % 256) ++ body) w h ch
          (w * h) 0 18 0 zeroBuf).2) := by
    simp only [load_body, hcm, h2, h8, h9, h10, h11, h16, hwp, hhp, hdisp]
    norm_num
  unfold load_tga2
  rw [if_neg (by rw [h2]; omega), hbody]

theorem swap02_lt {ch k : Nat} (hch3 : 3 ≤ ch) (hk : k < ch) : swap02 k < ch := by
  unfold swap02
  split
  · omega
  · split <;> omega

/-- Reading the file-order pixel bytes back through the B↔R channel swap recovers
the canonical byte. -/
theorem bgra_getD_swap (d : Buf) {ch : Nat} (hch : ch = 3 ∨ ch = 4) (p k : Nat)
    (hk : k < ch) :
    (bgra d ch p).getD (swap02 k) 0 = d (p * ch + k) := by
  rcases hch with h | h <;> subst h <;> interval_cases k <;> simp [bgra, swap02]

/-- Index decomposition: every byte offset below `w*h*ch` is `(y*w+x)*ch+k` with
`y < h`, `x < w`, `k < ch`. -/
theorem idx_decompose (w h ch q : Nat) (hq : q < w * h * ch) :
    ∃ y x k, y < h ∧ x < w ∧ k < ch ∧ (y * w + x) * ch + k = q := by
  have hch0 : 0 < ch := by
    rcases Nat.eq_zero_or_pos ch with h | h
    · subst h; omega
    · exact h
  have hw0 : 0 < w := by
    rcases Nat.eq_zero_or_pos w with h | h
    · subst h; simp at hq
    · exact h
  refine ⟨q / ch / w, q / ch % w, q % ch, ?_, Nat.mod_lt _ hw0, Nat.mod_lt _ hch0, ?_⟩
  · have hp : q / ch < w * h := by
      rw [Nat.div_lt_iff_lt_mul hch0]
      calc q < w * h * ch := hq
      _ = w * h * ch := rfl
    rw [Nat.div_lt_iff_lt_mul hw0]
    calc q / ch < w * h := hp
    _ = h * w := by ring
  · have h1 : q / ch / w * w + q / ch % w = q / ch := by
      rw [Nat.mul_comm]
      exact Nat.div_add_mod (q / ch) w
    have h2 : q / ch * ch + q % ch = q := by
      rw [Nat.mul_comm]
      exact Nat.div_add_mod q ch
    rw [h1, h2]

/-- The non-RLE true-colour decode of the non-RLE true-colour encode of a pixel
buffer gives back every byte of the buffer: the encoder's per-pixel B,G,R[,A]
reordering and the decoder's B↔R swap cancel. -/
theorem rgb_buf_roundtrip (d : Buf) (w h ch : Nat) (hch : ch = 3 ∨ ch = 4)
    (q : Nat) (hq : q < w * h * ch) :
    swapsOf (rgbSwapPairs w h ch)
      (bufWrite zeroBuf 0 ((List.range (w * h)).flatMap fun p => bgra d ch p)) q = d q := by
  have hch3 : 3 ≤ ch := by omega
  obtain ⟨y, x, k, hy, hx, hk, rfl⟩ := idx_decompose w h ch q hq
  rw [swapsOf_eq]
  have he : (y * w + x) * ch + k = w * ch * y + x * ch + k := by ring
  rw [he]
  show bufWrite zeroBuf 0 ((List.range (w * h)).flatMap fun p => bgra d ch p)
      (permOf (rgbSwapPairs w h ch) (w * ch * y + x * ch + k)) = d (w * ch * y + x * ch + k)
  rw [permOf_rgbSwapPairs w h ch hch3 y x k hy hx hk]
  have hsw := swap02_lt hch3 hk
  have hlen : ((List.range (w * h)).flatMap fun p => bgra d ch p).length = w * h * ch :=
    flatMap_range_length _ ch (bgra_length d hch) (w * h)
  have hidx : w * ch * y + x * ch + swap02 k = (y * w + x) * ch + swap02 k := by ring
  have hin : (y * w + x) * ch + swap02 k < w * h * ch := by
    have hpix : y * w + x < w * h := by
      calc y * w + x < y * w + w := by omega
      _ = (y + 1) * w := by ring
      _ ≤ h * w := Nat.mul_le_mul_right w (by omega)
      _ = w * h := by ring
    calc (y * w + x) * ch + swap02 k < (y * w + x) * ch + ch := by omega
    _ = (y * w + x + 1) * ch := by ring
    _ ≤ w * h * ch := Nat.mul_le_mul_right ch (by omega)
  rw [hidx, bufWrite_eval, if_pos (by constructor <;> omega)]
  rw [Nat.sub_zero,
    flatMap_range_getD _ ch (bgra_length d hch) (w * h) (y * w + x) (swap02 k)
      (by
        calc y * w + x < y * w + w := by omega
        _ = (y + 1) * w := by ring
        _ ≤ h * w := Nat.mul_le_mul_right w (by omega)
        _ = w * h := by ring) hsw]
  rw [show w * ch * y + x * ch + k = (y * w + x) * ch + k from by ring]
  exact bgra_getD_swap d hch (y * w + x) k hk

/-- Dropping past a known prefix of a suffix. -/
theorem drop_shift {l t : List Nat} (xs : List Nat) {p : Nat}
    (h : l.drop p = xs ++ t) : l.drop (p + xs.length) = t := by
  have h2 : List.drop xs.length (List.drop p l) = t := by
    rw [h]
    exact List.drop_left xs t
  rw [List.drop_drop] at h2
  exact h2

/-- `readN` recovers a known block at the current position. -/
theorem readN_of_drop {l t : List Nat} (xs : List Nat) {p n : Nat}
    (h : l.drop p = xs ++ t) (hn : xs.length = n) : readN l p n = xs := by
  unfold readN
  rw [h, ← hn, List.take_left]

/-- Byte offsets of a pixel range: every offset in `[s*c, (s+n)*c)` is
`(s+t)*c+k` with `t < n`, `k < c`. -/
theorem idx_decompose2 (s c n q : Nat) (h1 : s * c ≤ q) (h2 : q < (s + n) * c) :
    ∃ t k, t < n ∧ k < c ∧ (s + t) * c + k = q := by
  have he : (s + n) * c = s * c + n * c := by ring
  have hc0 : 0 < c := by
    rcases Nat.eq_zero_or_pos c with h | h
    · subst h; omega
    · exact h
  have hr : q - s * c < n * c := by omega
  refine ⟨(q - s * c) / c, (q - s * c) % c, ?_, Nat.mod_lt _ hc0, ?_⟩
  · rw [Nat.div_lt_iff_lt_mul hc0]
    calc q - s * c < n * c := hr
    _ = n * c := rfl
  · have h3 : (q - s * c) / c * c + (q - s * c) % c = q - s * c := by
      rw [Nat.mul_comm]
      exact Nat.div_add_mod (q - s * c) c
    have h4 : (s + (q - s * c) / c) * c = s * c + (q - s * c) / c * c := by ring
    omega

/-- The run-packet fill leaves offsets outside `[i*ch, (i+n)*ch)` unchanged. -/
theorem rgb_run_fill_out (ch : Nat) (hch : ch = 3 ∨ ch = 4) (colors : Buf) :
    ∀ n d0 i q, (q < i * ch ∨ (i + n) * ch ≤ q) →
      rgb_run_fill ch colors d0 i n q = d0 q := by
  intro n
  induction n with
  | zero => intro d0 i q _; rfl
  | succ m ih =>
    intro d0 i q hq
    have e1 : (i + 1) * ch = i * ch + ch := by ring
    have e2 : (i + (m + 1)) * ch = (i + 1 + m) * ch := by ring
    have e3 : (i + 1 + m) * ch = i * ch + ch + m * ch := by ring
    simp only [rgb_run_fill]
    rw [ih _ (i + 1) q (by omega)]
    by_cases hc4 : ch = 4
    · rw [if_pos hc4]
      rw [updB_ne _ _ _ _ (by omega), updB_ne _ _ _ _ (by omega),
        updB_ne _ _ _ _ (by omega), updB_ne _ _ _ _ (by omega)]
    · rw [if_neg hc4]
      rw [updB_ne _ _ _ _ (by omega), updB_ne _ _ _ _ (by omega),
        updB_ne _ _ _ _ (by omega)]

/-- The run-packet fill writes `colors (swap02 k)` at channel `k` of each covered
pixel (channels 0 and 2 are crossed: `data[0] = colors[2]`, `data[2] = colors[0]`). -/
theorem rgb_run_fill_in (ch : Nat) (hch : ch = 3 ∨ ch = 4) (colors : Buf) :
    ∀ n d0 i t k, t < n → k < ch →
      rgb_run_fill ch colors d0 i n ((i + t) * ch + k) = colors (swap02 k) := by
  intro n
  induction n with
  | zero => intro d0 i t k ht _; omega
  | succ m ih =>
    intro d0 i t k ht hk
    rcases Nat.eq_zero_or_pos t with h0 | hpos
    · subst h0
      have e1 : (i + 1) * ch = i * ch + ch := by ring
      have e0 : (i + 0) * ch + k = i * ch + k := by ring
      simp only [rgb_run_fill]
      rw [e0, rgb_run_fill_out ch hch colors m _ (i + 1) (i * ch + k) (Or.inl (by omega))]
      by_cases hc4 : ch = 4
      · subst hc4
        rw [if_pos rfl]
        interval_cases k <;>
          first
          | (rw [updB_at]; rfl)
          | (rw [updB_ne _ _ _ _ (by omega), updB_at]; rfl)
          | (rw [updB_ne _ _ _ _ (by omega), updB_ne _ _ _ _ (by omega), updB_at]; rfl)
          | (rw [updB_ne _ _ _ _ (by omega), updB_ne _ _ _ _ (by omega),
              updB_ne _ _ _ _ (by omega), updB_at]; rfl)
      · have hc3 : ch = 3 := by omega
        subst hc3
        rw [if_neg hc4]
        interval_cases k <;>
          first
          | (rw [updB_at]; rfl)
          | (rw [updB_ne _ _ _ _ (by omega), updB_at]; rfl)
          | (rw [updB_ne _ _ _ _ (by omega), updB_ne _ _ _ _ (by omega), updB_at]; rfl)
    · obtain ⟨u, rfl⟩ : ∃ u, t = u + 1 := ⟨t - 1, by omega⟩
      have e : (i + (u + 1)) * ch + k = (i + 1 + u) * ch + k := by ring
      simp only [rgb_run_fill]
      rw [e]
      exact ih _ (i + 1) u k (by omega) hk

/-- The 24/32-bit RLE decoder replays a covering packet stream exactly: it ends
just past the serialised stream, reproduces the covered pixels' canonical bytes,
and leaves every other offset of the destination buffer unchanged. -/
theorem rle_load_covers (bytes : List Nat) (w h ch : Nat) (hch : ch = 3 ∨ ch = 4)
    (d : Buf) :
    ∀ ps s n, Covers d ch ps s n → s + n = w * h →
      ∀ fuel pos d0 rest, n ≤ fuel →
        bytes.drop pos = serializePackets ps ++ rest →
        (rgb_rle_load bytes w h ch fuel s pos 0 d0).2 =
            pos + (serializePackets ps).length ∧
          ∀ q, (s * ch ≤ q → q < (s + n) * ch →
                (rgb_rle_load bytes w h ch fuel s pos 0 d0).1 q = d q) ∧
              ((q < s * ch ∨ (s + n) * ch ≤ q) →
                (rgb_rle_load bytes w h ch fuel s pos 0 d0).1 q = d0 q) := by
  have hch3 : 3 ≤ ch := by omega
  intro ps s n hcov
  induction hcov with
  | nil s =>
    intro hsum fuel pos d0 rest hfuel hdrop
    have hres : rgb_rle_load bytes w h ch fuel s pos 0 d0 = (d0, pos) := by
      cases fuel with
      | zero => rfl
      | succ f =>
        simp only [rgb_rle_load]
        rw [if_neg (by omega)]
    rw [hres]
    refine ⟨by simp [serializePackets], fun q => ⟨fun h1 h2 => ?_, fun _ => rfl⟩⟩
    exfalso
    have e : (s + 0) * ch = s * ch := by ring
    omega
  | run s m dup ps h1 h2 hchain htail ih =>
    intro hsum fuel pos d0 rest hfuel hdrop
    obtain ⟨f, rfl⟩ : ∃ f, fuel = f + 1 := ⟨fuel - 1, by omega⟩
    have hsplit : serializePackets (Packet.run dup (bgra d ch (s + dup)) :: ps) =
        (128 + dup) :: (bgra d ch (s + dup) ++ serializePackets ps) := by
      simp only [serializePackets, List.flatMap_cons, serialize_run dup _ h2, List.cons_append]
    have hdrop1 : bytes.drop pos =
        [128 + dup] ++ (bgra d ch (s + dup) ++ (serializePackets ps ++ rest)) := by
      rw [hdrop, hsplit]
      simp [List.append_assoc]
    have hrb : readN bytes pos 1 = [128 + dup] := readN_of_drop _ hdrop1 rfl
    have hdrop2 : bytes.drop (pos + 1) =
        bgra d ch (s + dup) ++ (serializePackets ps ++ rest) := by
      have h5 := drop_shift [128 + dup] hdrop1
      simpa using h5
    have hcb : readN bytes (pos + 1) ch = bgra d ch (s + dup) :=
      readN_of_drop _ hdrop2 (bgra_length d hch _)
    have hdrop3 : bytes.drop (pos + 1 + ch) = serializePackets ps ++ rest := by
      have h5 := drop_shift (bgra d ch (s + dup)) hdrop2
      rw [bgra_length d hch] at h5
      exact h5
    have hyes : (128 + dup) &&& 128 ≠ 0 := and128_hi (128 + dup) (by omega) (by omega)
    have hstep : rgb_rle_load bytes w h ch (f + 1) s pos 0 d0 =
        rgb_rle_load bytes w h ch f (s + (dup + 1)) (pos + 1 + ch) 0
          (rgb_run_fill ch (fun k => (bgra d ch (s + dup)).getD k 0) d0 s (dup + 1)) := by
      simp only [rgb_rle_load]
      rw [if_pos (show s < w * h by omega), hrb]
      simp only [List.length_singleton, List.getD_cons_zero]
      rw [if_pos hyes, hcb, bgra_length d hch,
        show 128 + dup - 127 = dup + 1 from by omega]
    rw [hstep]
    obtain ⟨ihpos, ihq⟩ := ih (by omega) f (pos + 1 + ch)
      (rgb_run_fill ch (fun k => (bgra d ch (s + dup)).getD k 0) d0 s (dup + 1)) rest
      (by omega) hdrop3
    have e1 : (s + (dup + 1)) * ch = s * ch + (dup + 1) * ch := by ring
    have e2 : (s + (dup + 1 + m)) * ch = (s + (dup + 1) + m) * ch := by ring
    have e4 : (s + (dup + 1) + m) * ch = (s + (dup + 1)) * ch + m * ch := by ring
    refine ⟨?_, fun q => ⟨fun hq1 hq2 => ?_, fun hout => ?_⟩⟩
    · rw [ihpos, hsplit]
      simp only [List.length_cons, List.length_append, bgra_length d hch]
      omega
    · rcases Nat.lt_or_ge q ((s + (dup + 1)) * ch) with hlt | hge
      · rw [(ihq q).2 (Or.inl hlt)]
        obtain ⟨t, k, ht, hk, rfl⟩ := idx_decompose2 s ch (dup + 1) q hq1 hlt
        rw [rgb_run_fill_in ch hch _ (dup + 1) d0 s t k ht hk]
        show (bgra d ch (s + dup)).getD (swap02 k) 0 = d ((s + t) * ch + k)
        rw [← hchain t (by omega)]
        exact bgra_getD_swap d hch (s + t) k hk
      · exact (ihq q).1 hge (by omega)
    · rw [(ihq q).2 (by omega)]
      exact rgb_run_fill_out ch hch _ (dup + 1) d0 s q (by omega)
  | raw s m diff ps hd127 htail ih =>
    intro hsum fuel pos d0 rest hfuel hdrop
    obtain ⟨f, rfl⟩ : ∃ f, fuel = f + 1 := ⟨fuel - 1, by omega⟩
    have hplen : (rgb_raw_payload d ch (s + diff) diff).length = (diff + 1) * ch :=
      flatMap_range_length _ ch (fun t => bgra_length d hch _) (diff + 1)
    have hsplit : serializePackets
          (Packet.raw diff (rgb_raw_payload d ch (s + diff) diff) :: ps) =
        diff :: (rgb_raw_payload d ch (s + diff) diff ++ serializePackets ps) := by
      simp only [serializePackets, List.flatMap_cons, serialize_raw diff _ hd127,
        List.cons_append]
    have hdrop1 : bytes.drop pos =
        [diff] ++ (rgb_raw_payload d ch (s + diff) diff ++ (serializePackets ps ++ rest)) := by
      rw [hdrop, hsplit]
      simp [List.append_assoc]
    have hrb : readN bytes pos 1 = [diff] := readN_of_drop _ hdrop1 rfl
    have hdrop2 : bytes.drop (pos + 1) =
        rgb_raw_payload d ch (s + diff) diff ++ (serializePackets ps ++ rest) := by
      have h5 := drop_shift [diff] hdrop1
      simpa using h5
    have hchunk : readN bytes (pos + 1) ((diff + 1) * ch) =
        rgb_raw_payload d ch (s + diff) diff :=
      readN_of_drop _ hdrop2 hplen
    have hdrop3 : bytes.drop (pos + 1 + (diff + 1) * ch) = serializePackets ps ++ rest := by
      have h5 := drop_shift (rgb_raw_payload d ch (s + diff) diff) hdrop2
      rw [hplen] at h5
      exact h5
    have hno : ¬((diff : Nat) &&& 128 ≠ 0) := by
      have h5 := and128_lo diff (by omega)
      exact fun hcon => hcon h5
    have hstep : rgb_rle_load bytes w h ch (f + 1) s pos 0 d0 =
        rgb_rle_load bytes w h ch f (s + (diff + 1)) (pos + 1 + (diff + 1) * ch) 0
          (swapsOf ((List.range (diff + 1)).map fun t => ((s + t) * ch, (s + t) * ch + 2))
            (bufWrite d0 (s * ch) (rgb_raw_payload d ch (s + diff) diff))) := by
      simp only [rgb_rle_load]
      rw [if_pos (show s < w * h by omega), hrb]
      simp only [List.length_singleton, List.getD_cons_zero]
      rw [if_neg hno, hchunk, hplen]
    rw [hstep]
    obtain ⟨ihpos, ihq⟩ := ih (by omega) f (pos + 1 + (diff + 1) * ch)
      (swapsOf ((List.range (diff + 1)).map fun t => ((s + t) * ch, (s + t) * ch + 2))
        (bufWrite d0 (s * ch) (rgb_raw_payload d ch (s + diff) diff))) rest
      (by omega) hdrop3
    have e1 : (s + (diff + 1)) * ch = s * ch + (diff + 1) * ch := by ring
    have e2 : (s + (diff + 1 + m)) * ch = (s + (diff + 1) + m) * ch := by ring
    have e4 : (s + (diff + 1) + m) * ch = (s + (diff + 1)) * ch + m * ch := by ring
    refine ⟨?_, fun q => ⟨fun hq1 hq2 => ?_, fun hout => ?_⟩⟩
    · rw [ihpos, hsplit]
      simp only [List.length_cons, List.length_append, hplen]
      omega
    · rcases Nat.lt_or_ge q ((s + (diff + 1)) * ch) with hlt | hge
      · rw [(ihq q).2 (Or.inl hlt)]
        obtain ⟨t, k, ht, hk, rfl⟩ := idx_decompose2 s ch (diff + 1) q hq1 hlt
        rw [swapsOf_eq]
        show bufWrite d0 (s * ch) (rgb_raw_payload d ch (s + diff) diff)
            (permOf ((List.range (diff + 1)).map fun u => ((s + u) * ch, (s + u) * ch + 2))
              ((s + t) * ch + k)) = d ((s + t) * ch + k)
        rw [permOf_rawSwap ch s (diff + 1) t k hch3 ht hk, bufWrite_eval]
        have hsw := swap02_lt hch3 hk
        have e5 : (s + t) * ch = s * ch + t * ch := by ring
        have e6 : (t + 1) * ch = t * ch + ch := by ring
        have e7 : (t + 1) * ch ≤ (diff + 1) * ch := Nat.mul_le_mul_right _ (by omega)
        rw [if_pos (by rw [hplen]; omega)]
        rw [show (s + t) * ch + swap02 k - s * ch = t * ch + swap02 k from by omega]
        simp only [rgb_raw_payload]
        rw [flatMap_range_getD _ ch (fun u => bgra_length d hch _) (diff + 1) t
          (swap02 k) ht hsw]
        show (bgra d ch (s + diff - (diff - t))).getD (swap02 k) 0 = d ((s + t) * ch + k)
        rw [show s + diff - (diff - t) = s + t from by omega]
        exact bgra_getD_swap d hch (s + t) k hk
      · exact (ihq q).1 hge (by omega)
    · rw [(ihq q).2 (by omega), swapsOf_eq]
      show bufWrite d0 (s * ch) (rgb_raw_payload d ch (s + diff) diff)
          (permOf ((List.range (diff + 1)).map fun u => ((s + u) * ch, (s + u) * ch + 2)) q) =
        d0 q
      rw [rawSwap_untouched ch s (diff + 1) q hch3 (by omega), bufWrite_eval]
      rw [if_neg (by rw [hplen]; omega)]

/-- Transport a covering along arithmetic identities. -/
theorem Covers_congr {d : Buf} {ch : Nat} {ps : List Packet} {s1 s2 n1 n2 : Nat}
    (h : Covers d ch ps s1 n1) (hs : s1 = s2) (hn : n1 = n2) : Covers d ch ps s2 n2 := by
  subst hs hn
  exact h

/-- Coverings of adjacent pixel ranges concatenate. -/
theorem Covers_append {d : Buf} {ch : Nat} {ps qs : List Packet} {s n m : Nat}
    (h1 : Covers d ch ps s n) (h2 : Covers d ch qs (s + n) m) :
    Covers d ch (ps ++ qs) s (n + m) := by
  induction h1 with
  | nil s =>
    simp only [List.nil_append, Nat.zero_add]
    exact Covers_congr h2 (by omega) rfl
  | run s m' dup ps' ha hb hc htail ih =>
    have ih2 := ih (Covers_congr h2 (by omega) rfl)
    rw [List.cons_append]
    exact Covers_congr (Covers.run s (m' + m) dup (ps' ++ qs) ha hb hc
      (Covers_congr ih2 rfl rfl)) rfl (by omega)
  | raw s m' diff ps' ha htail ih =>
    have ih2 := ih (Covers_congr h2 (by omega) rfl)
    rw [List.cons_append]
    exact Covers_congr (Covers.raw s (m' + m) diff (ps' ++ qs) ha
      (Covers_congr ih2 rfl rfl)) rfl (by omega)

/-- Invariant of the true-colour RLE row scan: starting anywhere inside a row
whose tail has no 128-pixel equal run, the scan finishes the row with both
counters zeroed and the packets it appends cover the still-unflushed pixels
(from `j - dup - diff`) to the end of the row. -/
theorem rle_row_covers (d : Buf) (ch w : Nat) (hch : ch = 3 ∨ ch = 4) (rowBase : Nat)
    (hnl : ∀ j0, j0 + 128 ≤ w →
      ∃ t, t < 127 ∧ pix_dup d ch (rowBase + j0 + t) (rowBase + j0 + t + 1) = false) :
    ∀ fuel j dup diff out,
      j ≤ w → dup + diff ≤ j → (dup = 0 ∨ diff = 0) → dup ≤ 126 → diff ≤ 127 →
      (j = w → dup = 0 ∧ diff = 0) →
      2 * (w - j) + diff ≤ fuel →
      (∀ t, t < dup →
        pix_dup d ch (rowBase + (j - dup) + t) (rowBase + (j - dup) + t + 1) = true) →
      ∃ ps, rle_row w (pix_dup d ch) (fun p => bgra d ch p) (rgb_raw_payload d ch) rowBase
          fuel j dup diff out = (out ++ ps, 0, 0) ∧
        Covers d ch ps (rowBase + (j - dup - diff)) (w - (j - dup - diff)) := by
  intro fuel
  induction fuel with
  | zero =>
    intro j dup diff out hj hsum hz hdup hdiff hjw hfuel hchain
    have hjeq : j = w := by omega
    obtain ⟨hd0, hf0⟩ := hjw hjeq
    subst hd0
    subst hf0
    refine ⟨[], ?_, ?_⟩
    · show (out, 0, 0) = (out ++ [], 0, 0)
      rw [List.append_nil]
    · exact Covers_congr (Covers.nil (rowBase + (j - 0 - 0))) rfl (by omega)
  | succ f ih =>
    intro j dup diff out hj hsum hz hdup hdiff hjw hfuel hchain
    by_cases hjlt : j < w
    · simp only [rle_row]
      rw [if_pos hjlt]
      by_cases hb1 : diff = 0 ∧ j + 1 < w ∧
          pix_dup d ch (rowBase + j) (rowBase + j + 1) = true ∧ dup + 1 < 128
      · rw [if_pos hb1]
        obtain ⟨hbd, hbw, hbe, hblt⟩ := hb1
        have hdup' : dup ≤ 125 := by
          by_contra hcon
          have hd126 : dup = 126 := by omega
          subst hd126
          obtain ⟨t0, ht0, hfalse⟩ := hnl (j - 126) (by omega)
          have htrue : pix_dup d ch (rowBase + (j - 126) + t0)
              (rowBase + (j - 126) + t0 + 1) = true := by
            rcases Nat.lt_or_ge t0 126 with hlt | hge
            · exact hchain t0 hlt
            · rw [show t0 = 126 from by omega,
                show rowBase + (j - 126) + 126 = rowBase + j from by omega]
              exact hbe
          rw [htrue] at hfalse
          exact Bool.noConfusion hfalse
        have hres := ih (j + 1) (dup + 1) diff out (by omega) (by omega)
          (Or.inr hbd) (by omega) (by omega) (by omega) (by omega)
          (by
            intro t ht
            rw [show j + 1 - (dup + 1) = j - dup from by omega]
            rcases Nat.lt_or_ge t dup with hlt | hge
            · exact hchain t hlt
            · rw [show t = dup from by omega,
                show rowBase + (j - dup) + dup = rowBase + j from by omega]
              exact hbe)
        obtain ⟨ps, hrow, hcov⟩ := hres
        exact ⟨ps, hrow, Covers_congr hcov (by omega) (by omega)⟩
      · rw [if_neg hb1]
        by_cases hb2 : dup = 0
        · rw [if_neg (not_not_intro hb2)]
          subst hb2
          by_cases hb3 : diff + 1 < 128 ∧ j + 1 < w ∧
              ¬(pix_dup d ch (rowBase + j) (rowBase + j + 1) = true)
          · rw [if_pos hb3]
            have hres := ih (j + 1) 0 (diff + 1) out (by omega) (by omega)
              (Or.inl rfl) (by omega) (by omega) (by omega) (by omega)
              (by intro t ht; exact absurd ht (by omega))
            obtain ⟨ps, hrow, hcov⟩ := hres
            exact ⟨ps, hrow, Covers_congr hcov (by omega) (by omega)⟩
          · rw [if_neg hb3]
            by_cases hb4 : diff + 1 < 128 ∧ j + 1 < w
            · rw [if_pos hb4]
              have heq : pix_dup d ch (rowBase + j) (rowBase + j + 1) = true := by
                by_contra hcon
                exact hb3 ⟨hb4.1, hb4.2, hcon⟩
              have hdge : 1 ≤ diff := by
                by_contra hcon
                exact hb1 ⟨by omega, hb4.2, heq, by omega⟩
              have hres := ih j 0 0
                (out ++ [Packet.raw (diff - 1)
                  (rgb_raw_payload d ch (rowBase + j - 1) (diff - 1))])
                (by omega) (by omega) (Or.inl rfl) (by omega) (by omega) (by omega)
                (by omega) (by intro t ht; exact absurd ht (by omega))
              obtain ⟨ps, hrow, hcov⟩ := hres
              refine ⟨Packet.raw (diff - 1)
                (rgb_raw_payload d ch (rowBase + j - 1) (diff - 1)) :: ps, ?_, ?_⟩
              · rw [hrow, List.append_assoc, List.singleton_append]
              · have hcov' := Covers_congr hcov
                  (show rowBase + (j - 0 - 0) =
                    (rowBase + (j - diff)) + ((diff - 1) + 1) from by omega) rfl
                have hraw := Covers.raw (rowBase + (j - diff)) (w - j) (diff - 1) ps
                  (by omega) hcov'
                rw [show (rowBase + (j - diff)) + (diff - 1) = rowBase + j - 1
                  from by omega] at hraw
                exact Covers_congr hraw (by omega) (by omega)
            · rw [if_neg hb4]
              have hres := ih (j + 1) 0 0
                (out ++ [Packet.raw diff (rgb_raw_payload d ch (rowBase + j) diff)])
                (by omega) (by omega) (Or.inl rfl) (by omega) (by omega) (by omega)
                (by omega) (by intro t ht; exact absurd ht (by omega))
              obtain ⟨ps, hrow, hcov⟩ := hres
              refine ⟨Packet.raw diff (rgb_raw_payload d ch (rowBase + j) diff) :: ps,
                ?_, ?_⟩
              · rw [hrow, List.append_assoc, List.singleton_append]
              · have hcov' := Covers_congr hcov
                  (show rowBase + (j + 1 - 0 - 0) =
                    (rowBase + (j - diff)) + (diff + 1) from by omega) rfl
                have hraw := Covers.raw (rowBase + (j - diff)) (w - (j + 1)) diff ps
                  hdiff hcov'
                rw [show (rowBase + (j - diff)) + diff = rowBase + j from by omega] at hraw
                exact Covers_congr hraw (by omega) (by omega)
        · rw [if_pos hb2]
          have hdf0 : diff = 0 := by
            rcases hz with h | h
            · exact absurd h hb2
            · exact h
          have hres := ih (j + 1) 0 diff
            (out ++ [Packet.run dup (bgra d ch (rowBase + j))]) (by omega) (by omega)
            (Or.inl rfl) (by omega) (by omega) (by omega) (by omega)
            (by intro t ht; exact absurd ht (by omega))
          obtain ⟨ps, hrow, hcov⟩ := hres
          refine ⟨Packet.run dup (bgra d ch (rowBase + j)) :: ps, ?_, ?_⟩
          · rw [hrow, List.append_assoc, List.singleton_append]
          · have hcov' := Covers_congr hcov
              (show rowBase + (j + 1 - 0 - diff) =
                (rowBase + (j - dup)) + (dup + 1) from by omega)
              (show w - (j + 1 - 0 - diff) = w - (j + 1) from by omega)
            have hch' : ∀ t, t ≤ dup →
                bgra d ch ((rowBase + (j - dup)) + t) =
                  bgra d ch ((rowBase + (j - dup)) + dup) := by
              refine chain_eq_last (bgra d ch) (rowBase + (j - dup)) dup ?_
              intro t ht
              exact (pix_dup_iff d hch _ _).mp (hchain t ht)
            have hrun := Covers.run (rowBase + (j - dup)) (w - (j + 1)) dup ps
              (by omega) hdup hch' hcov'
            rw [show rowBase + (j - dup) + dup = rowBase + j from by omega] at hrun
            exact Covers_congr hrun (by omega) (by omega)
    · have hjeq : j = w := by omega
      obtain ⟨hd0, hf0⟩ := hjw hjeq
      subst hd0
      subst hf0
      refine ⟨[], ?_, ?_⟩
      · simp only [rle_row]
        rw [if_neg hjlt, List.append_nil]
      · exact Covers_congr (Covers.nil (rowBase + (j - 0 - 0))) rfl (by omega)

/-- Under `no_long_runs`, the packet stream the true-colour RLE encoder emits
covers the whole image: the scan starts every row with both counters at zero
(each row flushes completely), and the rows are contiguous. -/
theorem rle_scan_covers (d : Buf) (ch w h : Nat) (hch : ch = 3 ∨ ch = 4)
    (hnl : no_long_runs d ch w h) :
    Covers d ch (rgb_rle_packets d ch w h) 0 (w * h) := by
  have key : ∀ r, r ≤ h →
      ∃ out, ((List.range r).foldl
          (fun acc i => rle_row w (pix_dup d ch) (fun p => bgra d ch p)
            (rgb_raw_payload d ch) (i * w) (2 * w + 1) 0 acc.2.1 acc.2.2 acc.1)
          ([], 0, 0)) = (out, 0, 0) ∧ Covers d ch out 0 (r * w) := by
    intro r
    induction r with
    | zero =>
      intro _
      exact ⟨[], rfl, Covers_congr (Covers.nil 0) rfl (by omega)⟩
    | succ m ihm =>
      intro hm
      obtain ⟨out, hfold, hcov⟩ := ihm (by omega)
      rw [List.range_succ, List.foldl_append, hfold]
      simp only [List.foldl_cons, List.foldl_nil]
      have hrow := rle_row_covers d ch w hch (m * w)
        (by
          intro j0 hj0
          exact hnl m (by omega) j0 (by omega) hj0)
        (2 * w + 1) 0 0 0 out (by omega) (by omega) (Or.inl rfl) (by omega) (by omega)
        (fun _ => ⟨rfl, rfl⟩) (by omega)
        (by intro t ht; exact absurd ht (by omega))
      obtain ⟨ps, hrow2, hcov2⟩ := hrow
      refine ⟨out ++ ps, hrow2, ?_⟩
      have hglue := Covers_append hcov (Covers_congr hcov2
        (show m * w + (0 - 0 - 0) = 0 + m * w from by omega)
        (show w - (0 - 0 - 0) = w from by omega))
      exact Covers_congr hglue rfl (show m * w + w = (m + 1) * w from by ring)
  obtain ⟨out, hfold, hcov⟩ := key h (Nat.le_refl h)
  have hout : rgb_rle_packets d ch w h = out := by
    simp only [rgb_rle_packets, rle_scan, hfold]
  rw [hout]
  exact Covers_congr hcov rfl (show h * w = w * h from by ring)

/-- End-to-end RLE buffer round trip: under `no_long_runs`, decoding the encoder's
serialised packet stream (placed after the 18-byte header) reproduces every byte
of the canonical pixel buffer. -/
theorem rgb_rle_roundtrip (d : Buf) (w h ch : Nat) (hch : ch = 3 ∨ ch = 4)
    (hnl : no_long_runs d ch w h) :
    ∀ q, q < w * h * ch →
      (rgb_rle_load
        (write_header w h 0 0 0 0 10 (ch * 8 % 256) ++
          serializePackets (rgb_rle_packets d ch w h)) w h ch (w * h) 0 18 0 zeroBuf).1 q =
        d q := by
  intro q hq
  have hcov := rle_scan_covers d ch w h hch hnl
  have hdrop : (write_header w h 0 0 0 0 10 (ch * 8 % 256) ++
      serializePackets (rgb_rle_packets d ch w h)).drop 18 =
      serializePackets (rgb_rle_packets d ch w h) ++ [] := by
    rw [List.append_nil]
    have hl : (write_header w h 0 0 0 0 10 (ch * 8 % 256)).length = 18 := rfl
    rw [← hl]
    exact List.drop_left _ _
  obtain ⟨-, hqs⟩ := rle_load_covers
    (write_header w h 0 0 0 0 10 (ch * 8 % 256) ++
      serializePackets (rgb_rle_packets d ch w h)) w h ch hch d
    (rgb_rle_packets d ch w h) 0 (w * h) hcov (by omega)
    (w * h) 18 zeroBuf [] (Nat.le_refl _) hdrop
  have e : (0 + w * h) * ch = w * h * ch := by ring
  exact (hqs q).1 (by omega) (by omega)

/-- Claim C1 (amended): for the 24/32-bit true-colour subtypes the save/load
round trip is byte-exact.  A 3- or 4-channel canonical image saved as `TGA_RGB`
and reloaded yields success and the identical pixel buffer; the same holds for
`TGA_RGB_RLE` provided no image row contains 128 consecutive equal pixels (the
`rle_id = (duplicates+1) | 0x80; rle_id--` header arithmetic turns a 128-pixel
run packet into a raw-packet header, so such runs corrupt the stream — and the
15/16-bit subtypes are lossy, see the counterexample). -/
theorem C1_truecolor_roundtrip (ptga : tga_image)
    (hch : ptga.channels = 3 ∨ ptga.channels = 4)
    (hw : ptga.width < 65536) (hh : ptga.height < 65536) :
    ((write_tga ptga TGA_RGB).1 = true ∧
      (load_tga2 (write_tga ptga TGA_RGB).2 blank).2.1 = true ∧
      (load_tga2 (write_tga ptga TGA_RGB).2 blank).1.width = ptga.width ∧
      (load_tga2 (write_tga ptga TGA_RGB).2 blank).1.height = ptga.height ∧
      (load_tga2 (write_tga ptga TGA_RGB).2 blank).1.channels = ptga.channels ∧
      ∀ q, q < ptga.width * ptga.height * ptga.channels →
        (load_tga2 (write_tga ptga TGA_RGB).2 blank).1.data q = ptga.data q) ∧
    (no_long_runs ptga.data ptga.channels ptga.width ptga.height →
      (write_tga ptga TGA_RGB_RLE).1 = true ∧
      (load_tga2 (write_tga ptga TGA_RGB_RLE).2 blank).2.1 = true ∧
      (load_tga2 (write_tga ptga TGA_RGB_RLE).2 blank).1.width = ptga.width ∧
      (load_tga2 (write_tga ptga TGA_RGB_RLE).2 blank).1.height = ptga.height ∧
      (load_tga2 (write_tga ptga TGA_RGB_RLE).2 blank).1.channels = ptga.channels ∧
      ∀ q, q < ptga.width * ptga.height * ptga.channels →
        (load_tga2 (write_tga ptga TGA_RGB_RLE).2 blank).1.data q = ptga.data q) := by
  have hb : ((List.range (ptga.width * ptga.height)).flatMap fun p =>
      bgra ptga.data ptga.channels p).length =
      ptga.width * ptga.height * ptga.channels :=
    flatMap_range_length _ _ (bgra_length ptga.data hch) _
  constructor
  · have h2 : (write_tga ptga TGA_RGB).2 =
        write_header ptga.width ptga.height 0 0 0 0 2 (ptga.channels * 8 % 256) ++
          ((List.range (ptga.width * ptga.height)).flatMap fun p =>
            bgra ptga.data ptga.channels p) := rfl
    have hload := load_rgb ptga.width ptga.height ptga.channels
      ((List.range (ptga.width * ptga.height)).flatMap fun p =>
        bgra ptga.data ptga.channels p) hch hw hh hb
    refine ⟨rfl, ?_, ?_, ?_, ?_, ?_⟩
    · rw [h2, hload]
    · rw [h2, hload]
    · rw [h2, hload]
    · rw [h2, hload]
    · intro q hq
      rw [h2, hload]
      exact rgb_buf_roundtrip ptga.data ptga.width ptga.height ptga.channels hch q hq
  · intro hnl
    have h2 : (write_tga ptga TGA_RGB_RLE).2 =
        write_header ptga.width ptga.height 0 0 0 0 10 (ptga.channels * 8 % 256) ++
          serializePackets
            (rgb_rle_packets ptga.data ptga.channels ptga.width ptga.height) := rfl
    have hload := load_rgb_rle ptga.width ptga.height ptga.channels
      (serializePackets (rgb_rle_packets ptga.data ptga.channels ptga.width ptga.height))
      hch hw hh
    refine ⟨rfl, ?_, ?_, ?_, ?_, ?_⟩
    · rw [h2, hload]
    · rw [h2, hload]
    · rw [h2, hload]
    · rw [h2, hload]
    · intro q hq
      rw [h2, hload]
      exact rgb_rle_roundtrip ptga.data ptga.width ptga.height ptga.channels hch hnl q hq

/-- Witness for C1 at the 2×1 all-red image: both subtypes reload its first byte
unchanged. -/
theorem C1_truecolor_roundtrip_witness :
    (load_tga2 (write_tga c4_img TGA_RGB).2 blank).1.data 0 = c4_img.data 0 ∧
      (load_tga2 (write_tga c4_img TGA_RGB_RLE).2 blank).1.data 0 = c4_img.data 0 :=
  ⟨(C1_truecolor_roundtrip c4_img (Or.inl rfl) (by decide) (by decide)).1.2.2.2.2.2
      0 (by decide),
    ((C1_truecolor_roundtrip c4_img (Or.inl rfl) (by decide) (by decide)).2
      (by
        intro r hr j hj h128
        have hwv : c4_img.width = 2 := rfl
        omega)).2.2.2.2.2 0 (by decide)⟩

/-- Witness for C2 at a concrete 2×1 16-bit black-and-white file. -/
theorem C2_bw_decode_witness :
    (load_tga2 (bw16_header 2 1 ++ [10, 200, 30, 40]) blank).2.1 = true ∧
      (load_tga2 (bw16_header 2 1 ++ [10, 200, 30, 40]) blank).1.data (1 * 4 + 0) = 30 ∧
      (load_tga2 (bw16_header 2 1 ++ [10, 200, 30, 40]) blank).1.data (1 * 4 + 3) = 40 := by
  have h := C2_bw_decode 2 1 [10, 200, 30, 40] (by decide) (by decide)
  exact ⟨h.1, ((h.2.2.2.2 1 (by decide)).1.trans (by decide)),
    ((h.2.2.2.2 1 (by decide)).2.2.2.trans (by decide))⟩

end Tga
